import Mathlib

/-!
A shallow embedding of `AVLTree.hpp`.

The C++ class `AVLTree<T>` owns a graph of heap nodes reached from `root`.
Every node is owned by exactly one link, so the graph is a finite binary tree
and it is embedded as an inductive type.  A null pointer is `Node.nil`.

* `int` fields and results (`height`, `GetBalance`, `GetSize`) are `Int`, without
  wrap-around: every stored height is 1 plus the larger of two stored heights and
  every size is a count of nodes, so a wrap-around needs about 2^31 nodes.
* `T` is a type with a linear order; `<`, `>` and `==` of the source are the
  order's `<`, `>` and decidable equality.
* Dereferencing a null pointer is undefined behaviour in the source.  Every
  function of the source that dereferences a pointer it has not tested
  returns `Option`, with `none` standing for "a missing node was touched".
-/

namespace AVL

/-- The node of the source (`struct Node`): `nil` is the null pointer, `node value
height left right` is a heap node with these four fields. -/
inductive Node (α : Type) where
  | nil : Node α
  | node (value : α) (height : Int) (left : Node α) (right : Node α) : Node α
  deriving DecidableEq

namespace Node

variable {α : Type}

/-- Source `GetHeight(Node*)` (lines 253-259): 0 for null, the stored field otherwise. -/
def GetHeight : Node α → Int
  | nil => 0
  | node _ h _ _ => h

/-- Source `GetSize(Node*)` (lines 241-250): number of nodes, recomputed by traversal. -/
def GetSize : Node α → Int
  | nil => 0
  | node _ _ l r => 1 + GetSize l + GetSize r

/-- Source `GetBalance` (lines 85-91): 0 for null, else `height(left) - height(right)`. -/
def GetBalance : Node α → Int
  | nil => 0
  | node _ _ l r => GetHeight l - GetHeight r

/-- Source `RotateLeft` (lines 55-67).  `node->right` is dereferenced untested, so a
null `node` or a null `node->right` gives `none`.  The height of `node` is
recomputed first, then the height of the promoted node. -/
def RotateLeft : Node α → Option (Node α)
  | node v _ l (node rv _ rl rr) =>
      let n := node v (max (GetHeight l) (GetHeight rl) + 1) l rl
      some (node rv (max (GetHeight n) (GetHeight rr) + 1) n rr)
  | _ => none

/-- Source `RotateRight` (lines 70-82), the mirror of `RotateLeft`: `none` when
`node` or `node->left` is null. -/
def RotateRight : Node α → Option (Node α)
  | node v _ (node lv _ ll lr) r =>
      let n := node v (max (GetHeight lr) (GetHeight r) + 1) lr r
      some (node lv (max (GetHeight ll) (GetHeight n) + 1) ll n)
  | _ => none

variable [LinearOrder α]

/-- Lines 114-136 of the source `Insert(Node*, const T&)`: what happens to `node`
once the recursive call has been reattached; `v`, `l`, `r` are the value and the
two links of `node` at that point.  The height is recomputed, then the four
tests run.  `balance > 1` and `balance < -1` exclude each other and `&&`
short-circuits, so the tests of lines 118 and 124 are the only ones to read
`node->left->value` and those of lines 121 and 130 the only ones to read
`node->right->value`. -/
def InsertBalance (v : α) (l r : Node α) (value : α) : Option (Node α) :=
  let h : Int := 1 + max (GetHeight l) (GetHeight r)
  let balance : Int := GetBalance (node v h l r)
  if balance > 1 then
    match l with
    | nil => none
    | node lv _ _ _ =>
      if value < lv then RotateRight (node v h l r)
      else if value > lv then
        (RotateLeft l).bind fun l1 => RotateRight (node v h l1 r)
      else some (node v h l r)
  else if balance < -1 then
    match r with
    | nil => none
    | node rv _ _ _ =>
      if value > rv then RotateLeft (node v h l r)
      else if value < rv then
        (RotateRight r).bind fun r1 => RotateLeft (node v h l r1)
      else some (node v h l r)
  else some (node v h l r)

/-- Source `Insert(Node*, const T&)` (lines 94-137). -/
def Insert : Node α → α → Option (Node α)
  | nil, value => some (node value 1 nil nil)
  | node v _ l r, value =>
      if value < v then
        (Insert l value).bind fun l1 => InsertBalance v l1 r value
      else
        (Insert r value).bind fun r1 => InsertBalance v l r1 value

/-- Lines 170-175 of the source `Remove`: starting at a node, follow `left` links
while there is one and read the value reached.  `none` when the start is null. -/
def Leftmost : Node α → Option α
  | nil => none
  | node v _ nil _ => some v
  | node _ _ (node lv lh ll lr) _ => Leftmost (node lv lh ll lr)

/-- Lines 184-207 of the source `Remove(Node*, const T&)`: the height of `node` is
recomputed and the rotation is chosen from the balance factor of the child. -/
def RemoveBalance (v : α) (l r : Node α) : Option (Node α) :=
  let h : Int := 1 + max (GetHeight l) (GetHeight r)
  let balance : Int := GetBalance (node v h l r)
  if balance > 1 ∧ GetBalance l ≥ 0 then RotateRight (node v h l r)
  else if balance > 1 ∧ GetBalance l < 0 then
    (RotateLeft l).bind fun l1 => RotateRight (node v h l1 r)
  else if balance < -1 ∧ GetBalance r ≤ 0 then RotateLeft (node v h l r)
  else if balance < -1 ∧ GetBalance r > 0 then
    (RotateRight r).bind fun r1 => RotateLeft (node v h l r1)
  else some (node v h l r)

/-- Source `Remove(Node*, const T&)` (lines 140-208).  In the branch of a match
with at most one child, `tmp` is the left child if there is one, else the
right one; a node without children becomes null (line 181 returns), a node with
one child takes over the value and the links of `tmp`.  With two children the
node takes the value of the leftmost node of its right subtree and that value
is removed from the right subtree. -/
def Remove : Node α → α → Option (Node α)
  | nil, _ => some nil
  | node v _ l r, value =>
      if value < v then
        (Remove l value).bind fun l1 => RemoveBalance v l1 r
      else if value > v then
        (Remove r value).bind fun r1 => RemoveBalance v l r1
      else
        match l, r with
        | nil, nil => some nil
        | nil, node tv _ tl tr => RemoveBalance tv tl tr
        | node tv _ tl tr, nil => RemoveBalance tv tl tr
        | node _ _ _ _, node _ _ _ _ =>
          (Leftmost r).bind fun m =>
            (Remove r m).bind fun r1 => RemoveBalance m l r1

/-- Source `Find` (lines 323-340), the loop started at a given node: one step of the
loop is one step down the tree. -/
def Find : Node α → α → Bool
  | nil, _ => false
  | node v _ l r, value =>
      if v = value then true
      else if value < v then Find l value
      else Find r value

/-- In-order sequence of the stored values: left subtree, node, right subtree. -/
def toList : Node α → List α
  | nil => []
  | node v _ l r => toList l ++ v :: toList r

/-- AVL balance at every node, on the stored heights: `|height(left) - height(right)| ≤ 1`
with an empty subtree counted as 0. -/
def Balanced : Node α → Prop
  | nil => True
  | node _ _ l r => |GetHeight l - GetHeight r| ≤ 1 ∧ Balanced l ∧ Balanced r

/-- Height consistency at every node: the stored height is
`1 + max (height left) (height right)`, an empty subtree counted as 0. -/
def HeightOK : Node α → Prop
  | nil => True
  | node _ h l r => h = 1 + max (GetHeight l) (GetHeight r) ∧ HeightOK l ∧ HeightOK r

/-- The ordering invariant in the words of the specification: at every node the
values of the left subtree are strictly less than the value of the node and the
values of the right subtree are not less than it. -/
def StrictBST : Node α → Prop
  | nil => True
  | node v _ l r =>
      (∀ x ∈ toList l, x < v) ∧ (∀ x ∈ toList r, ¬ x < v) ∧ StrictBST l ∧ StrictBST r

/-- The weak ordering invariant: at every node the values of the left subtree are
at most the value of the node and the values of the right subtree are at least
that value. -/
def WeakBST : Node α → Prop
  | nil => True
  | node v _ l r =>
      (∀ x ∈ toList l, x ≤ v) ∧ (∀ x ∈ toList r, v ≤ x) ∧ WeakBST l ∧ WeakBST r

/-- The in-order sequence of the values is non-decreasing. -/
def Ordered (t : Node α) : Prop := List.Sorted (· ≤ ·) (toList t)

end Node

/-- The class of the source: its only field is `root`. -/
structure AVLTree (α : Type) where
  root : Node α
  deriving DecidableEq

namespace AVLTree

variable {α : Type}

/-- Source default constructor (lines 278-281). -/
def empty : AVLTree α := ⟨Node.nil⟩

/-- Source `GetSize()` (lines 343-346). -/
def GetSize (t : AVLTree α) : Int := Node.GetSize t.root

/-- Source `GetHeight()` (lines 349-352). -/
def GetHeight (t : AVLTree α) : Int :=
  match t.root with
  | Node.nil => 0
  | Node.node _ h _ _ => h

variable [LinearOrder α]

/-- Source `Find(const T&)` (lines 323-340). -/
def Find (t : AVLTree α) (value : α) : Bool := Node.Find t.root value

/-- Source `Insert(const T&)` (lines 301-304). -/
def Insert (t : AVLTree α) (value : α) : Option (AVLTree α) :=
  (Node.Insert t.root value).map AVLTree.mk

/-- Source `Remove(const T&)` (lines 306-314): the result is the returned flag and
the tree afterwards. -/
def Remove (t : AVLTree α) (value : α) : Option (Bool × AVLTree α) :=
  if !Find t value then some (false, t)
  else (Node.Remove t.root value).map fun r => (true, AVLTree.mk r)

/-- The multiset of the stored values. -/
def values (t : AVLTree α) : Multiset α := (Node.toList t.root : Multiset α)

/-- Values inserted one by one, in the order of the list, by the public `Insert`;
`none` as soon as one insert touches a missing node. -/
def InsertAll : AVLTree α → List α → Option (AVLTree α)
  | t, [] => some t
  | t, x :: xs => (Insert t x).bind fun t1 => InsertAll t1 xs

end AVLTree

/-- One public mutating call: `insert v` or `remove v`. -/
inductive Op (α : Type) where
  | insert (value : α) : Op α
  | remove (value : α) : Op α
  deriving DecidableEq

variable {α : Type} [LinearOrder α]

/-- The tree after one call (the flag returned by `Remove` is dropped). -/
def step (t : AVLTree α) : Op α → Option (AVLTree α)
  | Op.insert v => AVLTree.Insert t v
  | Op.remove v => (AVLTree.Remove t v).map Prod.snd

/-- The tree after a sequence of calls, each of which runs to completion; `none` as
soon as one of them touches a missing node. -/
def run : AVLTree α → List (Op α) → Option (AVLTree α)
  | t, [] => some t
  | t, op :: ops => (step t op).bind fun t1 => run t1 ops

/-- The tree `t` is reached from the empty tree by a finite sequence of completed
insert and remove calls. -/
def Reachable (t : AVLTree α) : Prop := ∃ ops : List (Op α), run AVLTree.empty ops = some t

/-- The state of a `std::ostream` as far as the inserters used by `Print` read or
change it: the characters written so far, whether the stream is good (no error
flag set), the pending field width, the fill character and whether the
adjustment is `left`.  The sink takes every character it is given, as a string
stream does. -/
structure OStream where
  text : String
  good : Bool
  width : Nat
  fill : Char
  left : Bool
  deriving DecidableEq

namespace OStream

/-- A formatted inserter that writes the characters `s` (`os << "    "` and
`os << node->value`).  On a stream that is not good nothing happens.
Otherwise `s` is padded with the fill character up to the pending field width,
after `s` when the adjustment is `left` and before it otherwise, the padded
characters are written and the field width is reset to 0. -/
def insert (os : OStream) (s : String) : OStream :=
  if os.good then
    let pad := String.mk (List.replicate (os.width - s.length) os.fill)
    { os with text := os.text ++ (if os.left then s ++ pad else pad ++ s), width := 0 }
  else os

/-- The manipulator `std::endl`: `put` of one line break, then a flush.  `put` is
an unformatted output function: it pads nothing and leaves the field width
alone, and on a stream that is not good it writes nothing. -/
def endl (os : OStream) : OStream :=
  if os.good then { os with text := os.text ++ "\n" } else os

end OStream

namespace Node

/-- Source `Clear(Node*&)` (lines 228-238).  The argument is the node the link
points to and the result is what the link holds after the call: both links of
the node are cleared in place, then the node is deleted and the link is set to
null. -/
def Clear {β : Type} : Node β → Node β
  | nil => nil
  | node v h l r =>
      match node v h (Clear l) (Clear r) with
      | _ => nil

/-- Source `Copy(Node*, Node*&)` (lines 211-225).  The second argument is what the
link `newNode` holds before the call and the result is what it holds after the
call.  For a null source the function returns at line 214 and the link keeps
what it held; otherwise a node is allocated with the value and the height of
the source, its two links are set to null and the subtrees are copied into
them. -/
def Copy {β : Type} : Node β → Node β → Node β
  | nil, newNode => newNode
  | node v h l r, _ => node v h (Copy l nil) (Copy r nil)

/-- Lines 269-270 of the source `Print`: the loop executes `os << "    "` `level`
times. -/
def PrintIndent (os : OStream) : Nat → OStream
  | 0 => os
  | k + 1 => PrintIndent (os.insert "    ") k

/-- Source `Print` (lines 262-275) on the stream state `os`.  `os << node->value` is
the inserter of the type parameter `T`, which the source does not contain; it
is taken to be a formatted inserter that writes the characters `render v`.
The counter `level` starts at 0 and is only incremented, so it is a natural
number. -/
def Print {β : Type} (render : β → String) : Node β → Nat → OStream → OStream
  | nil, _, os => os
  | node v _ l r, level, os =>
      let os1 := Print render r (level + 1) os
      let os2 := PrintIndent os1 level
      let os3 := (os2.insert (render v)).endl
      Print render l (level + 1) os3

/-- Number of nodes on the longest path from the node down to a leaf, 0 for the
empty tree. -/
def LongestPath {β : Type} : Node β → Nat
  | nil => 0
  | node _ _ l r => 1 + max (LongestPath l) (LongestPath r)

/-- Strict search-tree order: at every node the values of the left subtree are
strictly less than the value of the node and the values of the right subtree
are strictly greater. -/
def SearchTree : Node α → Prop
  | nil => True
  | node v _ l r =>
      (∀ x ∈ toList l, x < v) ∧ (∀ x ∈ toList r, v < x) ∧ SearchTree l ∧ SearchTree r

end Node

namespace AVLTree

/-- Source `Clear()` (lines 317-320). -/
def Clear {β : Type} (t : AVLTree β) : AVLTree β := ⟨Node.Clear t.root⟩

/-- Source copy constructor (lines 284-287): `Copy(tree.root, root)` is called on
the member `root` of the object under construction, which no statement has
initialised; `uninit` is what that member happens to hold. -/
def CopyConstruct {β : Type} (uninit : Node β) (tree : AVLTree β) : AVLTree β :=
  ⟨Node.Copy tree.root uninit⟩

/-- Source assignment from another object (lines 295-296, after the test for
self-assignment): the current tree is cleared, then the source is copied into
`root`. -/
def Assign {β : Type} (this tree : AVLTree β) : AVLTree β :=
  ⟨Node.Copy tree.root (Node.Clear this.root)⟩

end AVLTree

/-- One public mutating call: `insert v`, `remove v` or `clear`. -/
inductive Call (α : Type) where
  | insert (value : α) : Call α
  | remove (value : α) : Call α
  | clear : Call α
  deriving DecidableEq

/-- The tree after one public mutating call. -/
def call (t : AVLTree α) : Call α → Option (AVLTree α)
  | Call.insert v => AVLTree.Insert t v
  | Call.remove v => (AVLTree.Remove t v).map Prod.snd
  | Call.clear => some (AVLTree.Clear t)

/-- The tree after a sequence of public mutating calls, each run to completion. -/
def runCalls : AVLTree α → List (Call α) → Option (AVLTree α)
  | t, [] => some t
  | t, c :: cs => (call t c).bind fun t1 => runCalls t1 cs

/-- The tree `t` is reached from the empty tree by a finite sequence of completed
insert, remove and clear calls. -/
def ReachableByCalls (t : AVLTree α) : Prop :=
  ∃ cs : List (Call α), runCalls AVLTree.empty cs = some t

end AVL

/-! ## Lemmas on the embedding -/

namespace AVL

namespace Node

section Shape

variable {α : Type}

@[simp] theorem GetHeight_nil : GetHeight (nil : Node α) = 0 := rfl

@[simp] theorem GetHeight_node (v : α) (h : Int) (l r : Node α) :
    GetHeight (node v h l r) = h := rfl

@[simp] theorem GetBalance_node (v : α) (h : Int) (l r : Node α) :
    GetBalance (node v h l r) = GetHeight l - GetHeight r := rfl

theorem GetHeight_pos_of_HeightOK {v : α} {h : Int} {l r : Node α}
    (hk : HeightOK (node v h l r)) : 1 ≤ h := by
  induction l generalizing v h r with
  | nil =>
    obtain ⟨e, -, -⟩ := hk
    simp only [GetHeight_nil, GetHeight_node] at e
    have := le_max_left (0 : Int) (GetHeight r)
    omega
  | node lv lh ll lr ihl _ =>
    obtain ⟨e, hl, -⟩ := hk
    have h1 := ihl hl
    simp only [GetHeight_nil, GetHeight_node] at e
    have := le_max_left lh (GetHeight r)
    omega

theorem GetHeight_nonneg {t : Node α} (hk : HeightOK t) : 0 ≤ GetHeight t := by
  cases t with
  | nil => simp [GetHeight]
  | node v h l r =>
    have := GetHeight_pos_of_HeightOK hk
    simp only [GetHeight_node]; omega

theorem HeightOK_RotateLeft {v : α} {h : Int} {l r t1 : Node α} (hl : HeightOK l)
    (hr : HeightOK r) (e : RotateLeft (node v h l r) = some t1) : HeightOK t1 := by
  cases r with
  | nil => simp [RotateLeft] at e
  | node rv rh rl rr =>
    obtain ⟨-, hrl, hrr⟩ := hr
    simp only [RotateLeft, Option.some.injEq] at e
    subst e
    exact ⟨add_comm _ _, ⟨add_comm _ _, hl, hrl⟩, hrr⟩

theorem HeightOK_RotateRight {v : α} {h : Int} {l r t1 : Node α} (hl : HeightOK l)
    (hr : HeightOK r) (e : RotateRight (node v h l r) = some t1) : HeightOK t1 := by
  cases l with
  | nil => simp [RotateRight] at e
  | node lv lh ll lr =>
    obtain ⟨-, hll, hlr⟩ := hl
    simp only [RotateRight, Option.some.injEq] at e
    subst e
    exact ⟨add_comm _ _, hll, ⟨add_comm _ _, hlr, hr⟩⟩

theorem HeightOK_of_RotateLeft {t t1 : Node α} (hk : HeightOK t)
    (e : RotateLeft t = some t1) : HeightOK t1 := by
  cases t with
  | nil => simp [RotateLeft] at e
  | node v h l r => exact HeightOK_RotateLeft hk.2.1 hk.2.2 e

theorem HeightOK_of_RotateRight {t t1 : Node α} (hk : HeightOK t)
    (e : RotateRight t = some t1) : HeightOK t1 := by
  cases t with
  | nil => simp [RotateRight] at e
  | node v h l r => exact HeightOK_RotateRight hk.2.1 hk.2.2 e

theorem toList_RotateLeft {t t1 : Node α} (h : RotateLeft t = some t1) :
    toList t1 = toList t := by
  unfold RotateLeft at h
  split at h
  · simp only [Option.some.injEq] at h
    subst h
    simp [toList]
  · simp at h

theorem toList_RotateRight {t t1 : Node α} (h : RotateRight t = some t1) :
    toList t1 = toList t := by
  unfold RotateRight at h
  split at h
  · simp only [Option.some.injEq] at h
    subst h
    simp [toList]
  · simp at h

theorem toList_RemoveBalance {v : α} {l r t1 : Node α}
    (h : RemoveBalance v l r = some t1) :
    toList t1 = toList l ++ v :: toList r := by
  unfold RemoveBalance at h
  simp only at h
  split_ifs at h
  · rw [toList_RotateRight h]; simp [toList]
  · obtain ⟨l1, hl1, h⟩ := Option.bind_eq_some.mp h
    rw [toList_RotateRight h]
    simp [toList, toList_RotateLeft hl1]
  · rw [toList_RotateLeft h]; simp [toList]
  · obtain ⟨r1, hr1, h⟩ := Option.bind_eq_some.mp h
    rw [toList_RotateLeft h]
    simp [toList, toList_RotateRight hr1]
  · simp only [Option.some.injEq] at h
    subst h
    simp [toList]

theorem GetSize_eq_length (t : Node α) : GetSize t = ((toList t).length : Int) := by
  induction t with
  | nil => simp [GetSize, toList]
  | node v h l r ihl ihr =>
    simp [GetSize, toList, ihl, ihr]; ring

/-- On height-consistent subtrees the rebalancing step of `Remove` finds every
node it rotates. -/
theorem RemoveBalance_total (v : α) {l r : Node α} (hl : HeightOK l) (hr : HeightOK r) :
    ∃ t1, RemoveBalance v l r = some t1 ∧ HeightOK t1 := by
  have h0l := GetHeight_nonneg hl
  have h0r := GetHeight_nonneg hr
  unfold RemoveBalance
  simp only [GetBalance_node]
  split_ifs with h1 h2 h3 h4
  · cases l with
    | nil => simp only [GetHeight_nil] at h1; omega
    | node lv lh ll lr =>
      exact ⟨_, rfl, add_comm _ _, hl.2.1, add_comm _ _, hl.2.2, hr⟩
  · cases l with
    | nil => simp only [GetHeight_nil] at h2; omega
    | node lv lh ll lr =>
      cases lr with
      | nil =>
        have := GetHeight_nonneg hl.2.1
        simp only [GetBalance_node, GetHeight_nil, GetHeight_node] at h2 h0l h0r
        omega
      | node bv bh bl br =>
        obtain ⟨-, hll, -, hbl, hbr⟩ := hl
        exact ⟨_, rfl, add_comm _ _, ⟨add_comm _ _, hll, hbl⟩, add_comm _ _, hbr, hr⟩
  · cases r with
    | nil => simp only [GetHeight_nil] at h3; omega
    | node rv rh rl rr =>
      exact ⟨_, rfl, add_comm _ _, ⟨add_comm _ _, hl, hr.2.1⟩, hr.2.2⟩
  · cases r with
    | nil => simp only [GetHeight_nil] at h4; omega
    | node rv rh rl rr =>
      cases rl with
      | nil =>
        have := GetHeight_nonneg hr.2.2
        simp only [GetBalance_node, GetHeight_nil, GetHeight_node] at h4 h0l h0r
        omega
      | node bv bh bl br =>
        obtain ⟨-, ⟨-, hbl, hbr⟩, hrr⟩ := hr
        exact ⟨_, rfl, add_comm _ _, ⟨add_comm _ _, hl, hbl⟩, add_comm _ _, hbr, hrr⟩
  · exact ⟨_, rfl, rfl, hl, hr⟩

theorem Leftmost_isSome (v : α) (h : Int) (l r : Node α) :
    ∃ m, Leftmost (node v h l r) = some m := by
  induction l generalizing v h r with
  | nil => exact ⟨v, rfl⟩
  | node lv lh ll lr ihl _ =>
    obtain ⟨m, hm⟩ := ihl lv lh lr
    exact ⟨m, by simpa [Leftmost] using hm⟩

theorem Leftmost_head {t : Node α} {m : α} (e : Leftmost t = some m) :
    ∃ rest, toList t = m :: rest := by
  induction t with
  | nil => simp [Leftmost] at e
  | node v h l r ihl _ =>
    cases l with
    | nil =>
      simp only [Leftmost, Option.some.injEq] at e
      subst e
      exact ⟨toList r, by simp [toList]⟩
    | node lv lh ll lr =>
      simp only [Leftmost] at e
      obtain ⟨rest, hrest⟩ := ihl e
      refine ⟨rest ++ v :: toList r, ?_⟩
      show toList (node lv lh ll lr) ++ v :: toList r = _
      rw [hrest]; rfl

theorem coe_toList_node (v : α) (h : Int) (l r : Node α) :
    (toList (node v h l r) : Multiset α) = (toList l : Multiset α) + v ::ₘ (toList r : Multiset α) := by
  simp only [toList, ← Multiset.coe_add, Multiset.cons_coe]

end Shape

section Order

variable {α : Type} [LinearOrder α]

theorem toList_InsertBalance {v value : α} {l r t1 : Node α}
    (h : InsertBalance v l r value = some t1) :
    toList t1 = toList l ++ v :: toList r := by
  unfold InsertBalance at h
  simp only at h
  split_ifs at h with h1 h2
  · cases l with
    | nil => simp at h
    | node lv lh ll lr =>
      simp only at h
      split_ifs at h with h3 h4
      · rw [toList_RotateRight h]; simp [toList]
      · obtain ⟨l1, hl1, h⟩ := Option.bind_eq_some.mp h
        rw [toList_RotateRight h]
        simp [toList, toList_RotateLeft hl1]
      · simp only [Option.some.injEq] at h
        subst h
        simp [toList]
  · cases r with
    | nil => simp at h
    | node rv rh rl rr =>
      simp only at h
      split_ifs at h with h3 h4
      · rw [toList_RotateLeft h]; simp [toList]
      · obtain ⟨r1, hr1, h⟩ := Option.bind_eq_some.mp h
        rw [toList_RotateLeft h]
        simp [toList, toList_RotateRight hr1]
      · simp only [Option.some.injEq] at h
        subst h
        simp [toList]
  · simp only [Option.some.injEq] at h
    subst h
    simp [toList]

theorem Insert_perm {t t1 : Node α} {value : α} (h : Insert t value = some t1) :
    (toList t1 : Multiset α) = value ::ₘ (toList t : Multiset α) := by
  induction t generalizing t1 with
  | nil =>
    simp only [Insert, Option.some.injEq] at h
    subst h
    simp [toList]
  | node v ht l r ihl ihr =>
    simp only [Insert] at h
    split_ifs at h with hlt
    · obtain ⟨l1, hl1, h⟩ := Option.bind_eq_some.mp h
      have hp := ihl hl1
      rw [toList_InsertBalance h]
      simp only [toList, ← Multiset.coe_add, ← Multiset.cons_coe, hp, Multiset.cons_add]
    · obtain ⟨r1, hr1, h⟩ := Option.bind_eq_some.mp h
      have hp := ihr hr1
      rw [toList_InsertBalance h]
      simp only [toList, ← Multiset.coe_add, ← Multiset.cons_coe, hp, Multiset.add_cons, Multiset.cons_swap]

theorem Insert_mem {t t1 : Node α} {value : α} (h : Insert t value = some t1) (x : α) :
    x ∈ toList t1 ↔ x = value ∨ x ∈ toList t := by
  have hp := Insert_perm h
  have : x ∈ (toList t1 : Multiset α) ↔ x ∈ value ::ₘ (toList t : Multiset α) := by rw [hp]
  simpa using this

theorem Ordered_node {v : α} {h : Int} {l r : Node α} :
    Ordered (node v h l r) ↔
      Ordered l ∧ Ordered r ∧ (∀ x ∈ toList l, x ≤ v) ∧ (∀ x ∈ toList r, v ≤ x) := by
  unfold Ordered List.Sorted
  simp only [toList, List.pairwise_append, List.pairwise_cons, List.mem_cons]
  constructor
  · rintro ⟨hl, ⟨hr1, hr2⟩, hlr⟩
    exact ⟨hl, hr2, fun x hx => hlr x hx v (Or.inl rfl), hr1⟩
  · rintro ⟨hl, hr, hlv, hvr⟩
    refine ⟨hl, ⟨hvr, hr⟩, ?_⟩
    intro x hx y hy
    rcases hy with rfl | hy
    · exact hlv x hx
    · exact le_trans (hlv x hx) (hvr y hy)

theorem Ordered_of_toList_eq {t t1 : Node α} (h : toList t1 = toList t) (ho : Ordered t) :
    Ordered t1 := by
  unfold Ordered at *
  rw [h]; exact ho

theorem Insert_Ordered {t t1 : Node α} {value : α} (ho : Ordered t)
    (h : Insert t value = some t1) : Ordered t1 := by
  induction t generalizing t1 with
  | nil =>
    simp only [Insert, Option.some.injEq] at h
    subst h
    simp [Ordered, toList]
  | node v ht l r ihl ihr =>
    obtain ⟨hol, hor, hlv, hvr⟩ := Ordered_node.mp ho
    simp only [Insert] at h
    split_ifs at h with hlt
    · obtain ⟨l1, hl1, h⟩ := Option.bind_eq_some.mp h
      have e : toList t1 = toList (node v 0 l1 r) := by
        rw [toList_InsertBalance h]; rfl
      refine Ordered_of_toList_eq e (Ordered_node.mpr ⟨ihl hol hl1, hor, ?_, hvr⟩)
      intro x hx
      rcases (Insert_mem hl1 x).mp hx with rfl | hx
      · exact le_of_lt hlt
      · exact hlv x hx
    · obtain ⟨r1, hr1, h⟩ := Option.bind_eq_some.mp h
      have e : toList t1 = toList (node v 0 l r1) := by
        rw [toList_InsertBalance h]; rfl
      refine Ordered_of_toList_eq e (Ordered_node.mpr ⟨hol, ihr hor hr1, hlv, ?_⟩)
      intro x hx
      rcases (Insert_mem hr1 x).mp hx with rfl | hx
      · exact le_of_not_lt hlt
      · exact hvr x hx

theorem WeakBST_of_Ordered {t : Node α} (ho : Ordered t) : WeakBST t := by
  induction t with
  | nil => trivial
  | node v h l r ihl ihr =>
    obtain ⟨hol, hor, hlv, hvr⟩ := Ordered_node.mp ho
    exact ⟨hlv, hvr, ihl hol, ihr hor⟩

theorem Find_iff_mem {t : Node α} (ho : Ordered t) (value : α) :
    Find t value = true ↔ value ∈ toList t := by
  induction t with
  | nil => simp [Find, toList]
  | node v h l r ihl ihr =>
    obtain ⟨hol, hor, hlv, hvr⟩ := Ordered_node.mp ho
    simp only [Find, toList, List.mem_append, List.mem_cons]
    split_ifs with h1 h2
    · simp [h1]
    · rw [ihl hol]
      constructor
      · exact fun hm => Or.inl hm
      · rintro (hm | rfl | hm)
        · exact hm
        · exact absurd rfl h1
        · exact absurd (hvr _ hm) (not_le_of_lt h2)
    · rw [ihr hor]
      constructor
      · exact fun hm => Or.inr (Or.inr hm)
      · rintro (hm | rfl | hm)
        · exact absurd (lt_of_le_of_ne (hlv _ hm) (fun e => h1 e.symm)) h2
        · exact absurd rfl h1
        · exact hm

theorem HeightOK_InsertBalance {v value : α} {l r t1 : Node α} (hl : HeightOK l)
    (hr : HeightOK r) (e : InsertBalance v l r value = some t1) : HeightOK t1 := by
  unfold InsertBalance at e
  simp only at e
  split_ifs at e with h1 h2
  · cases l with
    | nil => simp at e
    | node lv lh ll lr =>
      simp only at e
      split_ifs at e with h3 h4
      · exact HeightOK_RotateRight hl hr e
      · obtain ⟨l1, hl1, e⟩ := Option.bind_eq_some.mp e
        exact HeightOK_RotateRight (HeightOK_of_RotateLeft hl hl1) hr e
      · simp only [Option.some.injEq] at e
        subst e
        exact ⟨rfl, hl, hr⟩
  · cases r with
    | nil => simp at e
    | node rv rh rl rr =>
      simp only at e
      split_ifs at e with h3 h4
      · exact HeightOK_RotateLeft hl hr e
      · obtain ⟨r1, hr1, e⟩ := Option.bind_eq_some.mp e
        exact HeightOK_RotateLeft hl (HeightOK_of_RotateRight hr hr1) e
      · simp only [Option.some.injEq] at e
        subst e
        exact ⟨rfl, hl, hr⟩
  · simp only [Option.some.injEq] at e
    subst e
    exact ⟨rfl, hl, hr⟩

theorem HeightOK_Insert {t t1 : Node α} {value : α} (hk : HeightOK t)
    (e : Insert t value = some t1) : HeightOK t1 := by
  induction t generalizing t1 with
  | nil =>
    simp only [Insert, Option.some.injEq] at e
    subst e
    simp [HeightOK, GetHeight]
  | node v h l r ihl ihr =>
    obtain ⟨-, hl, hr⟩ := hk
    simp only [Insert] at e
    split_ifs at e with hlt
    · obtain ⟨l1, hl1, e⟩ := Option.bind_eq_some.mp e
      exact HeightOK_InsertBalance (ihl hl hl1) hr e
    · obtain ⟨r1, hr1, e⟩ := Option.bind_eq_some.mp e
      exact HeightOK_InsertBalance hl (ihr hr hr1) e

/-- On a height-consistent tree `Remove` touches no missing node, and its result is
height-consistent. -/
theorem Remove_total {t : Node α} (hk : HeightOK t) (value : α) :
    ∃ t1, Remove t value = some t1 ∧ HeightOK t1 := by
  induction t generalizing value with
  | nil => exact ⟨nil, rfl, trivial⟩
  | node v h l r ihl ihr =>
    obtain ⟨-, hl, hr⟩ := hk
    simp only [Remove]
    split_ifs with h1 h2
    · obtain ⟨l1, e1, k1⟩ := ihl hl value
      obtain ⟨t1, e, k⟩ := RemoveBalance_total v k1 hr
      exact ⟨t1, by simp [e1, e], k⟩
    · obtain ⟨r1, e1, k1⟩ := ihr hr value
      obtain ⟨t1, e, k⟩ := RemoveBalance_total v hl k1
      exact ⟨t1, by simp [e1, e], k⟩
    · cases l with
      | nil =>
        cases r with
        | nil => exact ⟨nil, rfl, trivial⟩
        | node tv th tl tr => exact RemoveBalance_total tv hr.2.1 hr.2.2
      | node lv lh ll lr =>
        cases r with
        | nil => exact RemoveBalance_total lv hl.2.1 hl.2.2
        | node rv rh rl rr =>
          obtain ⟨m, hm⟩ := Leftmost_isSome rv rh rl rr
          obtain ⟨r1, e1, k1⟩ := ihr hr m
          obtain ⟨t1, e, k⟩ := RemoveBalance_total m hl k1
          exact ⟨t1, by simp [hm, e1, e], k⟩

theorem Leftmost_le {t : Node α} {m : α} (ho : Ordered t) (e : Leftmost t = some m) :
    m ∈ toList t ∧ ∀ x ∈ toList t, m ≤ x := by
  obtain ⟨rest, hrest⟩ := Leftmost_head e
  unfold Ordered at ho
  rw [hrest] at ho ⊢
  refine ⟨List.mem_cons_self _ _, ?_⟩
  intro x hx
  rcases List.mem_cons.mp hx with rfl | hx
  · exact le_rfl
  · exact List.rel_of_sorted_cons ho x hx

/-- On a tree whose in-order sequence is non-decreasing, a completed `Remove` leaves
a non-decreasing in-order sequence and takes one occurrence of the value out of
the multiset of values (none when the value is absent). -/
theorem Remove_spec {t t1 : Node α} {value : α} (ho : Ordered t)
    (e : Remove t value = some t1) :
    Ordered t1 ∧ (toList t1 : Multiset α) = (toList t : Multiset α).erase value := by
  induction t generalizing t1 value with
  | nil =>
    simp only [Remove, Option.some.injEq] at e
    subst e
    exact ⟨ho, by simp [toList]⟩
  | node v h l r ihl ihr =>
    obtain ⟨hol, hor, hlv, hvr⟩ := Ordered_node.mp ho
    simp only [Remove] at e
    split_ifs at e with h1 h2
    · obtain ⟨l1, e1, e⟩ := Option.bind_eq_some.mp e
      obtain ⟨ol1, pl1⟩ := ihl hol e1
      have hmem : ∀ x ∈ toList l1, x ∈ toList l := by
        intro x hx
        have : x ∈ (toList l1 : Multiset α) := hx
        rw [pl1] at this
        exact Multiset.mem_of_mem_erase this
      have et : toList t1 = toList (node v h l1 r) := toList_RemoveBalance e
      refine ⟨Ordered_of_toList_eq et
        (Ordered_node.mpr ⟨ol1, hor, fun x hx => hlv x (hmem x hx), hvr⟩), ?_⟩
      rw [et, coe_toList_node, coe_toList_node, pl1]
      by_cases hin : value ∈ (toList l : Multiset α)
      · rw [Multiset.erase_add_left_pos _ hin]
      · rw [Multiset.erase_of_not_mem hin, Multiset.erase_of_not_mem]
        simp only [Multiset.mem_add, Multiset.mem_cons, Multiset.mem_coe, not_or]
        exact ⟨hin, ne_of_lt h1, fun hr => absurd (hvr _ hr) (not_le_of_lt h1)⟩
    · obtain ⟨r1, e1, e⟩ := Option.bind_eq_some.mp e
      obtain ⟨or1, pr1⟩ := ihr hor e1
      have hmem : ∀ x ∈ toList r1, x ∈ toList r := by
        intro x hx
        have : x ∈ (toList r1 : Multiset α) := hx
        rw [pr1] at this
        exact Multiset.mem_of_mem_erase this
      have et : toList t1 = toList (node v h l r1) := toList_RemoveBalance e
      refine ⟨Ordered_of_toList_eq et
        (Ordered_node.mpr ⟨hol, or1, hlv, fun x hx => hvr x (hmem x hx)⟩), ?_⟩
      rw [et, coe_toList_node, coe_toList_node, pr1]
      have hnl : value ∉ (toList l : Multiset α) :=
        fun hl => absurd (hlv _ hl) (not_le_of_lt h2)
      rw [Multiset.erase_add_right_neg _ hnl, Multiset.erase_cons_tail _ (ne_of_lt h2)]
    · have hv : value = v := le_antisymm (le_of_not_lt h2) (le_of_not_lt h1)
      subst hv
      cases l with
      | nil =>
        cases r with
        | nil =>
          simp only [Option.some.injEq] at e
          subst e
          exact ⟨by simp [Ordered, toList], by simp [toList]⟩
        | node tv th tl tr =>
          simp only at e
          have et : toList t1 = toList (node tv th tl tr) := toList_RemoveBalance e
          refine ⟨Ordered_of_toList_eq et hor, ?_⟩
          rw [et, coe_toList_node value h nil]
          simp [toList]
      | node lv lh ll lr =>
        cases r with
        | nil =>
          simp only at e
          have et : toList t1 = toList (node lv lh ll lr) := toList_RemoveBalance e
          refine ⟨Ordered_of_toList_eq et hol, ?_⟩
          rw [et, coe_toList_node value h _ nil,
            Multiset.erase_add_right_pos _ (Multiset.mem_cons_self _ _),
            Multiset.erase_cons_head]
          simp [toList]
        | node rv rh rl rr =>
          simp only at e
          obtain ⟨m, hm, e⟩ := Option.bind_eq_some.mp e
          obtain ⟨r1, e1, e⟩ := Option.bind_eq_some.mp e
          obtain ⟨or1, pr1⟩ := ihr hor e1
          obtain ⟨hmr, hmin⟩ := Leftmost_le hor hm
          have hmem : ∀ x ∈ toList r1, x ∈ toList (node rv rh rl rr) := by
            intro x hx
            have : x ∈ (toList r1 : Multiset α) := hx
            rw [pr1] at this
            exact Multiset.mem_of_mem_erase this
          have et : toList t1 = toList (node m h (node lv lh ll lr) r1) :=
            toList_RemoveBalance e
          refine ⟨Ordered_of_toList_eq et (Ordered_node.mpr ⟨hol, or1,
            fun x hx => le_trans (hlv x hx) (hvr m hmr),
            fun x hx => hmin x (hmem x hx)⟩), ?_⟩
          rw [et, coe_toList_node, coe_toList_node value, pr1, Multiset.cons_erase hmr]
          rw [Multiset.erase_add_right_pos _ (Multiset.mem_cons_self _ _),
            Multiset.erase_cons_head]

end Order

end Node

end AVL

/-! ## Invariants of the trees reached by public calls -/

namespace AVL

section Reach

variable {α : Type} [LinearOrder α]

theorem Insert_keeps {t t1 : AVLTree α} {v : α} (e : AVLTree.Insert t v = some t1)
    (hk : Node.HeightOK t.root) (ho : Node.Ordered t.root) :
    Node.HeightOK t1.root ∧ Node.Ordered t1.root := by
  unfold AVLTree.Insert at e
  obtain ⟨r1, er, rfl⟩ := Option.map_eq_some'.mp e
  exact ⟨Node.HeightOK_Insert hk er, Node.Insert_Ordered ho er⟩

theorem Remove_keeps {t t1 : AVLTree α} {v : α} {b : Bool}
    (e : AVLTree.Remove t v = some (b, t1))
    (hk : Node.HeightOK t.root) (ho : Node.Ordered t.root) :
    Node.HeightOK t1.root ∧ Node.Ordered t1.root := by
  unfold AVLTree.Remove at e
  split_ifs at e with hf
  · simp only [Option.some.injEq, Prod.mk.injEq] at e
    obtain ⟨-, rfl⟩ := e
    exact ⟨hk, ho⟩
  · obtain ⟨r1, er, e⟩ := Option.map_eq_some'.mp e
    simp only [Prod.mk.injEq] at e
    obtain ⟨-, rfl⟩ := e
    obtain ⟨r2, er2, k2⟩ := Node.Remove_total hk v
    rw [er] at er2
    simp only [Option.some.injEq] at er2
    subst er2
    exact ⟨k2, (Node.Remove_spec ho er).1⟩

theorem step_keeps {t t1 : AVLTree α} {op : Op α} (e : step t op = some t1)
    (hk : Node.HeightOK t.root) (ho : Node.Ordered t.root) :
    Node.HeightOK t1.root ∧ Node.Ordered t1.root := by
  cases op with
  | insert v => exact Insert_keeps e hk ho
  | remove v =>
    simp only [step] at e
    obtain ⟨⟨b, t2⟩, e2, rfl⟩ := Option.map_eq_some'.mp e
    exact Remove_keeps e2 hk ho

theorem run_keeps {ops : List (Op α)} {t t1 : AVLTree α} (e : run t ops = some t1)
    (hk : Node.HeightOK t.root) (ho : Node.Ordered t.root) :
    Node.HeightOK t1.root ∧ Node.Ordered t1.root := by
  induction ops generalizing t with
  | nil =>
    simp only [run, Option.some.injEq] at e
    subst e
    exact ⟨hk, ho⟩
  | cons op ops ih =>
    simp only [run] at e
    obtain ⟨t2, e2, e⟩ := Option.bind_eq_some.mp e
    obtain ⟨k2, o2⟩ := step_keeps e2 hk ho
    exact ih e k2 o2

/-- Every tree reached from the empty tree by completed insert and remove calls is
height-consistent and lists its values in non-decreasing order. -/
theorem Reachable.inv {t : AVLTree α} (hr : Reachable t) :
    Node.HeightOK t.root ∧ Node.Ordered t.root := by
  obtain ⟨ops, e⟩ := hr
  refine run_keeps e trivial ?_
  simp [AVLTree.empty, Node.Ordered, Node.toList]

theorem InsertAll_keeps {xs : List α} {t t1 : AVLTree α}
    (e : AVLTree.InsertAll t xs = some t1)
    (hk : Node.HeightOK t.root) (ho : Node.Ordered t.root) :
    Node.HeightOK t1.root ∧ Node.Ordered t1.root := by
  induction xs generalizing t with
  | nil =>
    simp only [AVLTree.InsertAll, Option.some.injEq] at e
    subst e
    exact ⟨hk, ho⟩
  | cons x xs ih =>
    simp only [AVLTree.InsertAll] at e
    obtain ⟨t2, e2, e⟩ := Option.bind_eq_some.mp e
    obtain ⟨k2, o2⟩ := Insert_keeps e2 hk ho
    exact ih e k2 o2

/-- On a reachable tree, when the public `Insert` runs to completion `Find`
returns true for the inserted value. -/
theorem Find_after_Insert {t t1 : AVLTree α} {v : α} (hr : Reachable t)
    (e : AVLTree.Insert t v = some t1) : AVLTree.Find t1 v = true := by
  obtain ⟨hk, ho⟩ := hr.inv
  obtain ⟨-, ho1⟩ := Insert_keeps e hk ho
  unfold AVLTree.Insert at e
  obtain ⟨r1, er, rfl⟩ := Option.map_eq_some'.mp e
  exact (Node.Find_iff_mem ho1 v).mpr ((Node.Insert_mem er v).mpr (Or.inl rfl))

end Reach

theorem logb_two_six_lt : Real.logb 2 6 < 13 / 5 := by
  rw [Real.logb_lt_iff_lt_rpow (by norm_num) (by norm_num)]
  have h1 : (6 : ℝ) = ((6 : ℝ) ^ (5 : ℕ)) ^ ((1 : ℝ) / 5) := by
    rw [← Real.rpow_natCast, ← Real.rpow_mul (by norm_num)]
    norm_num
  have h2 : (2 : ℝ) ^ ((13 : ℝ) / 5) = ((2 : ℝ) ^ (13 : ℕ)) ^ ((1 : ℝ) / 5) := by
    rw [← Real.rpow_natCast, ← Real.rpow_mul (by norm_num)]
    norm_num
  rw [h1, h2]
  exact Real.rpow_lt_rpow (by norm_num) (by norm_num) (by norm_num)

/-! ## The claims -/

/-- C1 (fails on the code): after inserting 1, 1, 1 into the empty tree the root
has an empty left subtree and a right subtree of stored height 2, so the AVL
balance condition does not hold at the root. -/
theorem C1_balance_lost_by_equal_values :
    ∃ t : AVLTree Nat, AVLTree.InsertAll AVLTree.empty [1, 1, 1] = some t ∧
      ¬ Node.Balanced t.root := by
  refine ⟨⟨.node 1 3 .nil (.node 1 2 .nil (.node 1 1 .nil .nil))⟩, by decide, ?_⟩
  simp [Node.Balanced]

/-- C2, as stated, is false: after inserting 1, 1, 2 the left rotation at the root
leaves a 1 in the left subtree of the root 1, which is not strictly less. -/
theorem C2_strict_order_counterexample :
    ∃ t : AVLTree Nat, AVLTree.InsertAll AVLTree.empty [1, 1, 2] = some t ∧
      ¬ Node.StrictBST t.root := by
  refine ⟨⟨.node 1 2 (.node 1 1 .nil .nil) (.node 2 1 .nil .nil)⟩, by decide, ?_⟩
  simp [Node.StrictBST, Node.toList]

/-- C2 (amended): for every sequence of values inserted one by one into the empty
tree, each insert running to completion, every node of the resulting tree has
only values less than or equal to its own in its left subtree and only values
greater than or equal to its own in its right subtree. -/
theorem C2_weak_order_after_inserts {α : Type} [LinearOrder α] (xs : List α)
    (t : AVLTree α) (e : AVLTree.InsertAll AVLTree.empty xs = some t) :
    Node.WeakBST t.root := by
  refine Node.WeakBST_of_Ordered (InsertAll_keeps e trivial ?_).2
  simp [AVLTree.empty, Node.Ordered, Node.toList]

/-- Witness of C2 (amended) on the inserts 1, 1, 2. -/
theorem C2_weak_order_after_inserts_witness :
    AVLTree.InsertAll AVLTree.empty [1, 1, 2] =
        some (⟨.node 1 2 (.node 1 1 .nil .nil) (.node 2 1 .nil .nil)⟩ : AVLTree Nat) ∧
      Node.WeakBST (.node 1 2 (.node 1 1 .nil .nil) (.node 2 1 .nil .nil) : Node Nat) :=
  ⟨by decide, C2_weak_order_after_inserts [1, 1, 2] _ (by decide)⟩

/-- C3 (fails on the code): after the inserts 1, 1, 1, 1 the insert of 0 reaches
line 131 with a right child whose left link is null, and `RotateRight` reads
through that null link: the insert touches a missing node. -/
theorem C3_insert_touches_missing_node :
    ∃ t : AVLTree Nat, AVLTree.InsertAll AVLTree.empty [1, 1, 1, 1] = some t ∧
      (∃ rv rh rr, t.root = .node 1 4 .nil (.node rv rh .nil rr) ∧
        Node.RotateRight (.node rv rh .nil rr) = none) ∧
      AVLTree.Insert t 0 = none := by
  refine ⟨⟨.node 1 4 .nil (.node 1 3 .nil (.node 1 2 .nil (.node 1 1 .nil .nil)))⟩,
    by decide, ⟨_, _, _, rfl, rfl⟩, by decide⟩

/-- C4 (fails on the code): the tree built by the inserts 1, 1, 1, 1 is reachable,
and on it `insert(0)` does not run to completion, so there is no tree on which
`find(0)` could return true. -/
theorem C4_insert_then_find_fails :
    ∃ t : AVLTree Nat, Reachable t ∧
      (AVLTree.Insert t 0).map (fun t1 => AVLTree.Find t1 0) ≠ some true := by
  refine ⟨⟨.node 1 4 .nil (.node 1 3 .nil (.node 1 2 .nil (.node 1 1 .nil .nil)))⟩,
    ⟨[.insert 1, .insert 1, .insert 1, .insert 1], by decide⟩, by decide⟩

/-- C5: on every tree whose in-order sequence of values is non-decreasing, `Find`
returns true for a value exactly when some node of the tree holds that value. -/
theorem C5_find_exact {α : Type} [LinearOrder α] (t : AVLTree α) (v : α)
    (ho : Node.Ordered t.root) :
    AVLTree.Find t v = true ↔ v ∈ Node.toList t.root :=
  Node.Find_iff_mem ho v

/-- Witness of C5: the tree built by the inserts 1, 1, 2 holds a 1 in the left
subtree of its root 1. -/
theorem C5_find_exact_witness :
    Node.Ordered (.node 1 2 (.node 1 1 .nil .nil) (.node 2 1 .nil .nil) : Node Nat) ∧
      (AVLTree.Find (⟨.node 1 2 (.node 1 1 .nil .nil) (.node 2 1 .nil .nil)⟩ : AVLTree Nat) 1
          = true ↔
        1 ∈ Node.toList (.node 1 2 (.node 1 1 .nil .nil) (.node 2 1 .nil .nil) : Node Nat)) :=
  ⟨by simp [Node.Ordered, Node.toList],
    C5_find_exact ⟨.node 1 2 (.node 1 1 .nil .nil) (.node 2 1 .nil .nil)⟩ 1
      (by simp [Node.Ordered, Node.toList])⟩

/-- C6: on every tree reached from the empty tree by completed insert and remove
calls, the public `Remove` runs to completion and the flag it returns is true
exactly when some node held the value before the call. -/
theorem C6_remove_flag_iff_present {α : Type} [LinearOrder α] (t : AVLTree α) (v : α)
    (hr : Reachable t) :
    ∃ b t1, AVLTree.Remove t v = some (b, t1) ∧ (b = true ↔ v ∈ Node.toList t.root) := by
  obtain ⟨hk, ho⟩ := hr.inv
  have hf := Node.Find_iff_mem ho v
  unfold AVLTree.Remove
  by_cases hfind : AVLTree.Find t v = true
  · obtain ⟨r1, e1, -⟩ := Node.Remove_total hk v
    refine ⟨true, ⟨r1⟩, by simp [hfind, e1], ?_⟩
    simpa using hf.mp hfind
  · refine ⟨false, t, by simp [hfind], ?_⟩
    simpa using fun hm => hfind (hf.mpr hm)

/-- Witness of C6 on the tree built by the inserts 2, 1, 3 and the value 1. -/
theorem C6_remove_flag_iff_present_witness :
    Reachable (⟨.node 2 2 (.node 1 1 .nil .nil) (.node 3 1 .nil .nil)⟩ : AVLTree Nat) ∧
      ∃ b t1,
        AVLTree.Remove (⟨.node 2 2 (.node 1 1 .nil .nil) (.node 3 1 .nil .nil)⟩ : AVLTree Nat) 1
          = some (b, t1) ∧
        (b = true ↔
          1 ∈ Node.toList (.node 2 2 (.node 1 1 .nil .nil) (.node 3 1 .nil .nil) : Node Nat)) :=
  ⟨⟨[.insert 2, .insert 1, .insert 3], by decide⟩,
    C6_remove_flag_iff_present _ 1 ⟨[.insert 2, .insert 1, .insert 3], by decide⟩⟩

/-- C7: on every tree reached from the empty tree by completed insert and remove
calls, when the public `Remove` returns true the multiset of values before the
call is the multiset afterwards plus one occurrence of the removed value, and
`GetSize` has gone down by exactly 1. -/
theorem C7_remove_takes_one_out {α : Type} [LinearOrder α] (t t1 : AVLTree α) (v : α)
    (hr : Reachable t) (e : AVLTree.Remove t v = some (true, t1)) :
    AVLTree.values t = v ::ₘ AVLTree.values t1 ∧
      AVLTree.GetSize t1 = AVLTree.GetSize t - 1 := by
  obtain ⟨hk, ho⟩ := hr.inv
  unfold AVLTree.Remove at e
  split_ifs at e with hfind
  · simp at e
  · obtain ⟨r1, e1, e⟩ := Option.map_eq_some'.mp e
    simp only [Prod.mk.injEq, true_and] at e
    subst e
    have hmem : v ∈ (Node.toList t.root : Multiset α) := by
      have := (Node.Find_iff_mem ho v).mp (by simpa [AVLTree.Find] using hfind)
      exact this
    have hp := (Node.Remove_spec ho e1).2
    have hv : AVLTree.values t = v ::ₘ AVLTree.values (AVLTree.mk r1) := by
      unfold AVLTree.values
      rw [hp, Multiset.cons_erase hmem]
    refine ⟨hv, ?_⟩
    have hc := congrArg Multiset.card hv
    simp only [AVLTree.values, Multiset.coe_card, Multiset.card_cons] at hc
    simp only [AVLTree.GetSize, Node.GetSize_eq_length]
    omega

/-- Witness of C7, the two-children case: 20 removed from the tree built by the
inserts 20, 10, 30, 5, 15, 25, 35. -/
theorem C7_remove_takes_one_out_witness :
    Reachable (⟨.node 20 3 (.node 10 2 (.node 5 1 .nil .nil) (.node 15 1 .nil .nil))
        (.node 30 2 (.node 25 1 .nil .nil) (.node 35 1 .nil .nil))⟩ : AVLTree Nat) ∧
      AVLTree.Remove (⟨.node 20 3 (.node 10 2 (.node 5 1 .nil .nil) (.node 15 1 .nil .nil))
        (.node 30 2 (.node 25 1 .nil .nil) (.node 35 1 .nil .nil))⟩ : AVLTree Nat) 20 =
        some (true, ⟨.node 25 3 (.node 10 2 (.node 5 1 .nil .nil) (.node 15 1 .nil .nil))
          (.node 30 2 .nil (.node 35 1 .nil .nil))⟩) ∧
      AVLTree.values (⟨.node 20 3 (.node 10 2 (.node 5 1 .nil .nil) (.node 15 1 .nil .nil))
        (.node 30 2 (.node 25 1 .nil .nil) (.node 35 1 .nil .nil))⟩ : AVLTree Nat) =
        20 ::ₘ AVLTree.values (⟨.node 25 3 (.node 10 2 (.node 5 1 .nil .nil) (.node 15 1 .nil .nil))
          (.node 30 2 .nil (.node 35 1 .nil .nil))⟩ : AVLTree Nat) ∧
      AVLTree.GetSize (⟨.node 25 3 (.node 10 2 (.node 5 1 .nil .nil) (.node 15 1 .nil .nil))
          (.node 30 2 .nil (.node 35 1 .nil .nil))⟩ : AVLTree Nat) =
        AVLTree.GetSize (⟨.node 20 3 (.node 10 2 (.node 5 1 .nil .nil) (.node 15 1 .nil .nil))
        (.node 30 2 (.node 25 1 .nil .nil) (.node 35 1 .nil .nil))⟩ : AVLTree Nat) - 1 :=
  ⟨⟨[.insert 20, .insert 10, .insert 30, .insert 5, .insert 15, .insert 25, .insert 35],
      by decide⟩,
    by decide,
    C7_remove_takes_one_out _ _ 20
      ⟨[.insert 20, .insert 10, .insert 30, .insert 5, .insert 15, .insert 25, .insert 35],
        by decide⟩
      (by decide)⟩

/-- C8: for every tree and every value on which `Find` returns false, the public
`Remove` returns false and the tree afterwards is the tree before: same shape,
same value and same stored height in every node. -/
theorem C8_remove_absent_is_noop {α : Type} [LinearOrder α] (t : AVLTree α) (v : α)
    (h : AVLTree.Find t v = false) :
    AVLTree.Remove t v = some (false, t) := by
  simp [AVLTree.Remove, h]

/-- Witness of C8: 4 is absent from the tree built by the inserts 2, 1, 3. -/
theorem C8_remove_absent_is_noop_witness :
    AVLTree.Find (⟨.node 2 2 (.node 1 1 .nil .nil) (.node 3 1 .nil .nil)⟩ : AVLTree Nat) 4
        = false ∧
      AVLTree.Remove (⟨.node 2 2 (.node 1 1 .nil .nil) (.node 3 1 .nil .nil)⟩ : AVLTree Nat) 4
        = some (false, ⟨.node 2 2 (.node 1 1 .nil .nil) (.node 3 1 .nil .nil)⟩) :=
  ⟨by decide, C8_remove_absent_is_noop _ 4 (by decide)⟩

/-- C9: for every tree and every value on which the public `Insert` runs to
completion, the multiset of values afterwards is the multiset before plus one
occurrence of the inserted value, and `GetSize` has gone up by exactly 1. -/
theorem C9_insert_adds_one {α : Type} [LinearOrder α] (t t1 : AVLTree α) (v : α)
    (e : AVLTree.Insert t v = some t1) :
    AVLTree.values t1 = v ::ₘ AVLTree.values t ∧
      AVLTree.GetSize t1 = AVLTree.GetSize t + 1 := by
  unfold AVLTree.Insert at e
  obtain ⟨r1, e1, rfl⟩ := Option.map_eq_some'.mp e
  have hv : AVLTree.values (AVLTree.mk r1) = v ::ₘ AVLTree.values t := Node.Insert_perm e1
  refine ⟨hv, ?_⟩
  have hc := congrArg Multiset.card hv
  simp only [AVLTree.values, Multiset.coe_card, Multiset.card_cons] at hc
  simp only [AVLTree.GetSize, Node.GetSize_eq_length]
  omega

/-- Witness of C9: a second 1 inserted into the tree that holds 1 and 2. -/
theorem C9_insert_adds_one_witness :
    AVLTree.Insert (⟨.node 1 2 .nil (.node 2 1 .nil .nil)⟩ : AVLTree Nat) 1 =
        some ⟨.node 1 2 (.node 1 1 .nil .nil) (.node 2 1 .nil .nil)⟩ ∧
      AVLTree.values (⟨.node 1 2 (.node 1 1 .nil .nil) (.node 2 1 .nil .nil)⟩ : AVLTree Nat) =
        1 ::ₘ AVLTree.values (⟨.node 1 2 .nil (.node 2 1 .nil .nil)⟩ : AVLTree Nat) ∧
      AVLTree.GetSize (⟨.node 1 2 (.node 1 1 .nil .nil) (.node 2 1 .nil .nil)⟩ : AVLTree Nat) =
        AVLTree.GetSize (⟨.node 1 2 .nil (.node 2 1 .nil .nil)⟩ : AVLTree Nat) + 1 :=
  ⟨by decide, C9_insert_adds_one _ _ 1 (by decide)⟩

/-- C10 (fails on the code): after the inserts 1, 1, 1, 1 the tree has 4 nodes and
stored root height 4, and 4 is greater than `1.4405 * log2 (4 + 2)`. -/
theorem C10_height_bound_fails :
    ∃ t : AVLTree Nat, AVLTree.InsertAll AVLTree.empty [1, 1, 1, 1] = some t ∧
      0 < AVLTree.GetSize t ∧
      ¬ ((AVLTree.GetHeight t : ℝ) ≤ 1.4405 * Real.logb 2 ((AVLTree.GetSize t : ℝ) + 2)) := by
  refine ⟨⟨.node 1 4 .nil (.node 1 3 .nil (.node 1 2 .nil (.node 1 1 .nil .nil)))⟩,
    by decide, by decide, ?_⟩
  have h := logb_two_six_lt
  have hs : AVLTree.GetSize (⟨.node 1 4 .nil (.node 1 3 .nil (.node 1 2 .nil
      (.node 1 1 .nil .nil)))⟩ : AVLTree Nat) = 4 := by decide
  have hh : AVLTree.GetHeight (⟨.node 1 4 .nil (.node 1 3 .nil (.node 1 2 .nil
      (.node 1 1 .nil .nil)))⟩ : AVLTree Nat) = 4 := rfl
  rw [hs, hh]
  norm_num at h ⊢
  nlinarith

end AVL

/-! ## Balance, copy, clear and text output -/

namespace AVL

namespace Node

section Shape2

variable {β : Type}

theorem Clear_eq_nil (t : Node β) : Clear t = nil := by
  cases t <;> rfl

theorem Copy_nil_link (t : Node β) : Copy t nil = t := by
  induction t with
  | nil => rfl
  | node v h l r ihl ihr => simp only [Copy, ihl, ihr]

theorem Copy_of_node (v : β) (h : Int) (l r newNode : Node β) :
    Copy (node v h l r) newNode = node v h l r := by
  simp only [Copy, Copy_nil_link]

theorem GetHeight_eq_LongestPath {t : Node β} (hk : HeightOK t) :
    GetHeight t = (LongestPath t : Int) := by
  induction t with
  | nil => rfl
  | node v h l r ihl ihr =>
    obtain ⟨e, hl, hr⟩ := hk
    simp only [GetHeight_node, LongestPath, e, ihl hl, ihr hr]
    push_cast
    rfl

end Shape2

end Node

section Calls

variable {α : Type} [LinearOrder α]

theorem call_keeps {t t1 : AVLTree α} {c : Call α} (e : call t c = some t1)
    (hk : Node.HeightOK t.root) (ho : Node.Ordered t.root) :
    Node.HeightOK t1.root ∧ Node.Ordered t1.root := by
  cases c with
  | insert v => exact Insert_keeps e hk ho
  | remove v =>
    simp only [call] at e
    obtain ⟨⟨b, t2⟩, e2, rfl⟩ := Option.map_eq_some'.mp e
    exact Remove_keeps e2 hk ho
  | clear =>
    simp only [call, Option.some.injEq] at e
    subst e
    simp [AVLTree.Clear, Node.Clear_eq_nil, Node.HeightOK, Node.Ordered, Node.toList]

theorem runCalls_keeps {cs : List (Call α)} {t t1 : AVLTree α} (e : runCalls t cs = some t1)
    (hk : Node.HeightOK t.root) (ho : Node.Ordered t.root) :
    Node.HeightOK t1.root ∧ Node.Ordered t1.root := by
  induction cs generalizing t with
  | nil =>
    simp only [runCalls, Option.some.injEq] at e
    subst e
    exact ⟨hk, ho⟩
  | cons c cs ih =>
    simp only [runCalls] at e
    obtain ⟨t2, e2, e⟩ := Option.bind_eq_some.mp e
    obtain ⟨k2, o2⟩ := call_keeps e2 hk ho
    exact ih e k2 o2

end Calls

namespace Node

section Text

variable {β : Type}

/-- On a stream that is not good `Print` writes nothing. -/
theorem Print_not_good (render : β → String) (t : Node β) (level : Nat) (os : OStream)
    (hg : os.good = false) : Print render t level os = os := by
  have hi : ∀ k, PrintIndent os k = os := by
    intro k
    induction k with
    | zero => rfl
    | succ k ih => rw [PrintIndent]; simpa [OStream.insert, hg] using ih
  induction t generalizing level with
  | nil => rfl
  | node v h l r ihl ihr =>
    simp only [Print, ihr, hi]
    simpa [OStream.insert, OStream.endl, hg] using ihl (level + 1)

end Text

section Balance

variable {α : Type}

theorem Balanced_node {v : α} {h : Int} {l r : Node α} :
    Balanced (node v h l r) ↔
      (GetHeight l - GetHeight r ≤ 1 ∧ GetHeight r - GetHeight l ≤ 1) ∧
        Balanced l ∧ Balanced r := by
  show (|GetHeight l - GetHeight r| ≤ 1 ∧ Balanced l ∧ Balanced r) ↔ _
  rw [abs_le]
  constructor
  · rintro ⟨⟨h1, h2⟩, bl, br⟩
    exact ⟨⟨h2, by omega⟩, bl, br⟩
  · rintro ⟨⟨h1, h2⟩, bl, br⟩
    exact ⟨⟨by omega, h1⟩, bl, br⟩

theorem HeightOK_node {v : α} {h : Int} {l r : Node α} :
    HeightOK (node v h l r) ↔
      h = 1 + max (GetHeight l) (GetHeight r) ∧ HeightOK l ∧ HeightOK r := Iff.rfl

/-- The rebalancing step of `Remove` on two balanced, height-consistent subtrees
whose stored heights differ by at most 2: it finds every node it rotates, its
result is balanced and height-consistent, and the stored height of the result
is `1 + max` of the two heights or one less, the former when the two heights
differ by at most 1. -/
theorem RemoveBalance_avl (v : α) {l r : Node α} (hl : HeightOK l) (hr : HeightOK r)
    (bl : Balanced l) (br : Balanced r)
    (hd : GetHeight l - GetHeight r ≤ 2) (hd2 : GetHeight r - GetHeight l ≤ 2) :
    ∃ t1, RemoveBalance v l r = some t1 ∧ HeightOK t1 ∧ Balanced t1 ∧
      GetHeight t1 ≤ 1 + max (GetHeight l) (GetHeight r) ∧
      max (GetHeight l) (GetHeight r) ≤ GetHeight t1 ∧
      ((GetHeight l - GetHeight r ≤ 1 ∧ GetHeight r - GetHeight l ≤ 1) →
        GetHeight t1 = 1 + max (GetHeight l) (GetHeight r)) := by
  have h0l := GetHeight_nonneg hl
  have h0r := GetHeight_nonneg hr
  unfold RemoveBalance
  simp only [GetBalance_node]
  split_ifs with h1 h2 h3 h4
  · cases l with
    | nil => simp only [GetHeight_nil] at h1; omega
    | node lv lh ll lr =>
      obtain ⟨e, kll, klr⟩ := hl
      obtain ⟨b, bll, blr⟩ := Balanced_node.mp bl
      have := GetHeight_nonneg kll
      have := GetHeight_nonneg klr
      simp only [GetHeight_node, GetBalance_node] at h1 hd hd2 h0l
      refine ⟨_, rfl, ⟨add_comm _ _, kll, add_comm _ _, klr, hr⟩,
        Balanced_node.mpr ⟨?_, bll, Balanced_node.mpr ⟨?_, blr, br⟩⟩, ?_, ?_, ?_⟩ <;>
      (try simp only [GetHeight_node]) <;> intros <;> omega
  · cases l with
    | nil => simp only [GetHeight_nil] at h2; omega
    | node lv lh ll lr =>
      obtain ⟨e, kll, klr⟩ := hl
      obtain ⟨b, bll, blr⟩ := Balanced_node.mp bl
      have := GetHeight_nonneg kll
      have := GetHeight_nonneg klr
      simp only [GetHeight_node, GetBalance_node] at h1 h2 hd hd2 h0l
      cases lr with
      | nil => simp only [GetHeight_nil] at h2 b e; omega
      | node bv bh bl1 br1 =>
        obtain ⟨e2, kbl, kbr⟩ := klr
        obtain ⟨b2, bbl, bbr⟩ := Balanced_node.mp blr
        have := GetHeight_nonneg kbl
        have := GetHeight_nonneg kbr
        simp only [GetHeight_node] at h2 b e
        refine ⟨_, rfl, ⟨add_comm _ _, ⟨add_comm _ _, kll, kbl⟩, add_comm _ _, kbr, hr⟩,
          Balanced_node.mpr ⟨?_, Balanced_node.mpr ⟨?_, bll, bbl⟩,
            Balanced_node.mpr ⟨?_, bbr, br⟩⟩, ?_, ?_, ?_⟩ <;>
        (try simp only [GetHeight_node]) <;> intros <;> omega
  · cases r with
    | nil => simp only [GetHeight_nil] at h3; omega
    | node rv rh rl rr =>
      obtain ⟨e, krl, krr⟩ := hr
      obtain ⟨b, brl, brr⟩ := Balanced_node.mp br
      have := GetHeight_nonneg krl
      have := GetHeight_nonneg krr
      simp only [GetHeight_node, GetBalance_node] at h1 h2 h3 hd hd2 h0r
      refine ⟨_, rfl, ⟨add_comm _ _, ⟨add_comm _ _, hl, krl⟩, krr⟩,
        Balanced_node.mpr ⟨?_, Balanced_node.mpr ⟨?_, bl, brl⟩, brr⟩, ?_, ?_, ?_⟩ <;>
      (try simp only [GetHeight_node]) <;> intros <;> omega
  · cases r with
    | nil => simp only [GetHeight_nil] at h4; omega
    | node rv rh rl rr =>
      obtain ⟨e, krl, krr⟩ := hr
      obtain ⟨b, brl, brr⟩ := Balanced_node.mp br
      have := GetHeight_nonneg krl
      have := GetHeight_nonneg krr
      simp only [GetHeight_node, GetBalance_node] at h1 h2 h3 h4 hd hd2 h0r
      cases rl with
      | nil => simp only [GetHeight_nil] at h4 b e; omega
      | node bv bh bl1 br1 =>
        obtain ⟨e2, kbl, kbr⟩ := krl
        obtain ⟨b2, bbl, bbr⟩ := Balanced_node.mp brl
        have := GetHeight_nonneg kbl
        have := GetHeight_nonneg kbr
        simp only [GetHeight_node] at h4 b e
        refine ⟨_, rfl, ⟨add_comm _ _, ⟨add_comm _ _, hl, kbl⟩, add_comm _ _, kbr, krr⟩,
          Balanced_node.mpr ⟨?_, Balanced_node.mpr ⟨?_, bl, bbl⟩,
            Balanced_node.mpr ⟨?_, bbr, brr⟩⟩, ?_, ?_, ?_⟩ <;>
        (try simp only [GetHeight_node]) <;> intros <;> omega
  · refine ⟨_, rfl, ⟨rfl, hl, hr⟩, Balanced_node.mpr ⟨?_, bl, br⟩, ?_, ?_, ?_⟩
    · omega
    · simp only [GetHeight_node]; omega
    · simp only [GetHeight_node]; omega
    · intro _; rfl

end Balance

section RemoveAvl

variable {α : Type} [LinearOrder α]

/-- The recursive `Remove` on a balanced, height-consistent tree, whatever the
values are: it finds every node it rotates, its result is balanced and
height-consistent, and the stored height of the result is the old one or one
less. -/
theorem Remove_avl {t : Node α} (hk : HeightOK t) (hb : Balanced t) (value : α) :
    ∃ t1, Remove t value = some t1 ∧ HeightOK t1 ∧ Balanced t1 ∧
      GetHeight t1 ≤ GetHeight t ∧ GetHeight t ≤ GetHeight t1 + 1 := by
  induction t generalizing value with
  | nil => exact ⟨nil, rfl, trivial, trivial, le_refl _, by simp⟩
  | node v h l r ihl ihr =>
    obtain ⟨e, hl, hr⟩ := hk
    obtain ⟨b, bl, br⟩ := Balanced_node.mp hb
    have h0l := GetHeight_nonneg hl
    have h0r := GetHeight_nonneg hr
    simp only [Remove, GetHeight_node]
    split_ifs with h1 h2
    · obtain ⟨l1, e1, k1, b1, le1, ge1⟩ := ihl hl bl value
      obtain ⟨t1, e2, k2, b2, le2, ge2, eq2⟩ :=
        RemoveBalance_avl v k1 hr b1 br (by omega) (by omega)
      refine ⟨t1, by simp [e1, e2], k2, b2, by omega, ?_⟩
      by_cases hc : GetHeight l1 - GetHeight r ≤ 1 ∧ GetHeight r - GetHeight l1 ≤ 1
      · have := eq2 hc
        omega
      · omega
    · obtain ⟨r1, e1, k1, b1, le1, ge1⟩ := ihr hr br value
      obtain ⟨t1, e2, k2, b2, le2, ge2, eq2⟩ :=
        RemoveBalance_avl v hl k1 bl b1 (by omega) (by omega)
      refine ⟨t1, by simp [e1, e2], k2, b2, by omega, ?_⟩
      by_cases hc : GetHeight l - GetHeight r1 ≤ 1 ∧ GetHeight r1 - GetHeight l ≤ 1
      · have := eq2 hc
        omega
      · omega
    · cases l with
      | nil =>
        cases r with
        | nil =>
          simp only [GetHeight_nil] at e
          exact ⟨nil, rfl, trivial, trivial, by simp only [GetHeight_nil]; omega,
            by simp only [GetHeight_nil]; omega⟩
        | node tv th tl tr =>
          obtain ⟨e3, ktl, ktr⟩ := hr
          obtain ⟨b3, btl, btr⟩ := Balanced_node.mp br
          obtain ⟨t1, e2, k2, b2, le2, ge2, eq2⟩ :=
            RemoveBalance_avl tv ktl ktr btl btr (by omega) (by omega)
          have := eq2 b3
          simp only [GetHeight_nil, GetHeight_node] at e b h0r
          exact ⟨t1, e2, k2, b2, by omega, by omega⟩
      | node tv th tl tr =>
        cases r with
        | nil =>
          obtain ⟨e3, ktl, ktr⟩ := hl
          obtain ⟨b3, btl, btr⟩ := Balanced_node.mp bl
          obtain ⟨t1, e2, k2, b2, le2, ge2, eq2⟩ :=
            RemoveBalance_avl tv ktl ktr btl btr (by omega) (by omega)
          have := eq2 b3
          simp only [GetHeight_nil, GetHeight_node] at e b h0l
          exact ⟨t1, e2, k2, b2, by omega, by omega⟩
        | node rv rh rl rr =>
          obtain ⟨m, hm⟩ := Leftmost_isSome rv rh rl rr
          obtain ⟨r1, e1, k1, b1, le1, ge1⟩ := ihr hr br m
          obtain ⟨t1, e2, k2, b2, le2, ge2, eq2⟩ :=
            RemoveBalance_avl m hl k1 bl b1 (by omega) (by omega)
          refine ⟨t1, by simp [hm, e1, e2], k2, b2, by omega, ?_⟩
          by_cases hc : GetHeight (node tv th tl tr) - GetHeight r1 ≤ 1 ∧
              GetHeight r1 - GetHeight (node tv th tl tr) ≤ 1
          · have := eq2 hc
            omega
          · omega

end RemoveAvl

section InsertAvl

variable {α : Type} [LinearOrder α]

/-- The rebalancing step of `Insert` when the value went into the left subtree:
`l1` is the left subtree after the insertion, at most one higher than the old
left subtree `l`, and when it is higher (and `l` was not empty) its root is
heavy on the side the value went to. -/
theorem InsertBalance_left (v value : α) {l l1 r : Node α} (hlt : value < v)
    (kl1 : HeightOK l1) (kr : HeightOK r) (bl1 : Balanced l1) (br : Balanced r)
    (h0l : 0 ≤ GetHeight l)
    (b : GetHeight l - GetHeight r ≤ 1 ∧ GetHeight r - GetHeight l ≤ 1)
    (ge1 : GetHeight l ≤ GetHeight l1) (le1 : GetHeight l1 ≤ GetHeight l + 1)
    (c1 : GetHeight l1 = GetHeight l + 1 → 1 ≤ GetHeight l →
      ∃ rv rh a c, l1 = node rv rh a c ∧
        ((value < rv ∧ GetHeight a = GetHeight c + 1) ∨
          (rv < value ∧ GetHeight c = GetHeight a + 1))) :
    ∃ t1, InsertBalance v l1 r value = some t1 ∧ HeightOK t1 ∧ Balanced t1 ∧
      1 + max (GetHeight l) (GetHeight r) ≤ GetHeight t1 ∧
      GetHeight t1 ≤ 1 + max (GetHeight l) (GetHeight r) + 1 ∧
      (GetHeight t1 = 1 + max (GetHeight l) (GetHeight r) + 1 →
        ∃ rv rh a c, t1 = node rv rh a c ∧
          ((value < rv ∧ GetHeight a = GetHeight c + 1) ∨
            (rv < value ∧ GetHeight c = GetHeight a + 1))) := by
  have h0r := GetHeight_nonneg kr
  unfold InsertBalance
  simp only [GetBalance_node]
  split_ifs with h1 h2
  · obtain ⟨lv, lh, ll, lr, rfl, hc⟩ := c1 (by omega) (by omega)
    obtain ⟨e, kll, klr⟩ := kl1
    obtain ⟨b1, bll, blr⟩ := Balanced_node.mp bl1
    have := GetHeight_nonneg kll
    have := GetHeight_nonneg klr
    simp only [GetHeight_node] at h1 ge1 le1 hc
    simp only
    split_ifs with h3 h4
    · have hh : GetHeight ll = GetHeight lr + 1 := by
        rcases hc with ⟨-, hh⟩ | ⟨hgt, -⟩
        · exact hh
        · exact absurd h3 (not_lt_of_lt hgt)
      refine ⟨_, rfl, ⟨add_comm _ _, kll, add_comm _ _, klr, kr⟩,
        Balanced_node.mpr ⟨?_, bll, Balanced_node.mpr ⟨?_, blr, br⟩⟩, ?_, ?_, ?_⟩ <;>
      (try simp only [GetHeight_node]) <;> intros <;> omega
    · have hh : GetHeight lr = GetHeight ll + 1 := by
        rcases hc with ⟨hlt2, -⟩ | ⟨-, hh⟩
        · exact absurd hlt2 h3
        · exact hh
      cases lr with
      | nil => simp only [GetHeight_nil] at hh; omega
      | node bv bh bl1 br1 =>
        obtain ⟨e2, kbl, kbr⟩ := klr
        obtain ⟨b2, bbl, bbr⟩ := Balanced_node.mp blr
        have := GetHeight_nonneg kbl
        have := GetHeight_nonneg kbr
        simp only [GetHeight_node] at hh e b1
        refine ⟨_, rfl, ⟨add_comm _ _, ⟨add_comm _ _, kll, kbl⟩, add_comm _ _, kbr, kr⟩,
          Balanced_node.mpr ⟨?_, Balanced_node.mpr ⟨?_, bll, bbl⟩,
            Balanced_node.mpr ⟨?_, bbr, br⟩⟩, ?_, ?_, ?_⟩ <;>
        (try simp only [GetHeight_node]) <;> intros <;> omega
    · rcases hc with ⟨hlt2, -⟩ | ⟨hgt, -⟩
      · exact absurd hlt2 h3
      · exact absurd hgt h4
  · omega
  · refine ⟨_, rfl, ⟨rfl, kl1, kr⟩, Balanced_node.mpr ⟨by omega, bl1, br⟩, ?_, ?_, ?_⟩
    · simp only [GetHeight_node]; omega
    · simp only [GetHeight_node]; omega
    · intro hg
      simp only [GetHeight_node] at hg
      exact ⟨_, _, _, _, rfl, Or.inl ⟨hlt, by omega⟩⟩

/-- The rebalancing step of `Insert` when the value went into the right subtree,
the mirror of `InsertBalance_left`. -/
theorem InsertBalance_right (v value : α) {l r r1 : Node α} (hgt : v < value)
    (kl : HeightOK l) (kr1 : HeightOK r1) (bl : Balanced l) (br1 : Balanced r1)
    (h0r : 0 ≤ GetHeight r)
    (b : GetHeight l - GetHeight r ≤ 1 ∧ GetHeight r - GetHeight l ≤ 1)
    (ge1 : GetHeight r ≤ GetHeight r1) (le1 : GetHeight r1 ≤ GetHeight r + 1)
    (c1 : GetHeight r1 = GetHeight r + 1 → 1 ≤ GetHeight r →
      ∃ rv rh a c, r1 = node rv rh a c ∧
        ((value < rv ∧ GetHeight a = GetHeight c + 1) ∨
          (rv < value ∧ GetHeight c = GetHeight a + 1))) :
    ∃ t1, InsertBalance v l r1 value = some t1 ∧ HeightOK t1 ∧ Balanced t1 ∧
      1 + max (GetHeight l) (GetHeight r) ≤ GetHeight t1 ∧
      GetHeight t1 ≤ 1 + max (GetHeight l) (GetHeight r) + 1 ∧
      (GetHeight t1 = 1 + max (GetHeight l) (GetHeight r) + 1 →
        ∃ rv rh a c, t1 = node rv rh a c ∧
          ((value < rv ∧ GetHeight a = GetHeight c + 1) ∨
            (rv < value ∧ GetHeight c = GetHeight a + 1))) := by
  have h0l := GetHeight_nonneg kl
  unfold InsertBalance
  simp only [GetBalance_node]
  split_ifs with h1 h2
  · omega
  · obtain ⟨rv, rh, rl, rr, rfl, hc⟩ := c1 (by omega) (by omega)
    obtain ⟨e, krl, krr⟩ := kr1
    obtain ⟨b1, brl, brr⟩ := Balanced_node.mp br1
    have := GetHeight_nonneg krl
    have := GetHeight_nonneg krr
    simp only [GetHeight_node] at h1 h2 ge1 le1 hc
    simp only
    split_ifs with h3 h4
    · have hh : GetHeight rr = GetHeight rl + 1 := by
        rcases hc with ⟨hlt2, -⟩ | ⟨-, hh⟩
        · exact absurd h3 (not_lt_of_lt hlt2)
        · exact hh
      refine ⟨_, rfl, ⟨add_comm _ _, ⟨add_comm _ _, kl, krl⟩, krr⟩,
        Balanced_node.mpr ⟨?_, Balanced_node.mpr ⟨?_, bl, brl⟩, brr⟩, ?_, ?_, ?_⟩ <;>
      (try simp only [GetHeight_node]) <;> intros <;> omega
    · have hh : GetHeight rl = GetHeight rr + 1 := by
        rcases hc with ⟨-, hh⟩ | ⟨hgt2, -⟩
        · exact hh
        · exact absurd hgt2 h3
      cases rl with
      | nil => simp only [GetHeight_nil] at hh; omega
      | node bv bh bl1 br2 =>
        obtain ⟨e2, kbl, kbr⟩ := krl
        obtain ⟨b2, bbl, bbr⟩ := Balanced_node.mp brl
        have := GetHeight_nonneg kbl
        have := GetHeight_nonneg kbr
        simp only [GetHeight_node] at hh e b1
        refine ⟨_, rfl, ⟨add_comm _ _, ⟨add_comm _ _, kl, kbl⟩, add_comm _ _, kbr, krr⟩,
          Balanced_node.mpr ⟨?_, Balanced_node.mpr ⟨?_, bl, bbl⟩,
            Balanced_node.mpr ⟨?_, bbr, brr⟩⟩, ?_, ?_, ?_⟩ <;>
        (try simp only [GetHeight_node]) <;> intros <;> omega
    · rcases hc with ⟨hlt2, -⟩ | ⟨hgt2, -⟩
      · exact absurd hlt2 h4
      · exact absurd hgt2 h3
  · refine ⟨_, rfl, ⟨rfl, kl, kr1⟩, Balanced_node.mpr ⟨by omega, bl, br1⟩, ?_, ?_, ?_⟩
    · simp only [GetHeight_node]; omega
    · simp only [GetHeight_node]; omega
    · intro hg
      simp only [GetHeight_node] at hg
      exact ⟨_, _, _, _, rfl, Or.inr ⟨hgt, by omega⟩⟩

/-- The recursive `Insert` of a value that no node holds into a balanced,
height-consistent tree: every rotation finds the child it promotes, the result
is balanced and height-consistent, and its stored height is the old one or
one more; in the latter case (for a non-empty tree) the root of the result
is heavy on the side the value went to. -/
theorem Insert_avl {t : Node α} (hk : HeightOK t) (hb : Balanced t) {value : α}
    (hn : value ∉ toList t) :
    ∃ t1, Insert t value = some t1 ∧ HeightOK t1 ∧ Balanced t1 ∧
      GetHeight t ≤ GetHeight t1 ∧ GetHeight t1 ≤ GetHeight t + 1 ∧
      (GetHeight t1 = GetHeight t + 1 → 1 ≤ GetHeight t →
        ∃ rv rh a c, t1 = node rv rh a c ∧
          ((value < rv ∧ GetHeight a = GetHeight c + 1) ∨
            (rv < value ∧ GetHeight c = GetHeight a + 1))) := by
  induction t with
  | nil =>
    refine ⟨node value 1 nil nil, rfl, ⟨rfl, trivial, trivial⟩,
      Balanced_node.mpr ⟨by simp, trivial, trivial⟩, by simp, by simp, ?_⟩
    intro _ h1
    simp only [GetHeight_nil] at h1
    omega
  | node v h l r ihl ihr =>
    obtain ⟨e, kl, kr⟩ := hk
    obtain ⟨b, bl, br⟩ := Balanced_node.mp hb
    have h0l := GetHeight_nonneg kl
    have h0r := GetHeight_nonneg kr
    simp only [toList, List.mem_append, List.mem_cons, not_or] at hn
    obtain ⟨hnl, hnv, hnr⟩ := hn
    simp only [Insert, GetHeight_node]
    split_ifs with hlt
    · obtain ⟨l1, e1, kl1, bl1, ge1, le1, c1⟩ := ihl kl bl hnl
      obtain ⟨t1, e2, k2, b2, ge2, le2, c2⟩ :=
        InsertBalance_left v value hlt kl1 kr bl1 br h0l b ge1 le1 c1
      exact ⟨t1, by simp [e1, e2], k2, b2, by omega, by omega,
        fun hg _ => c2 (by omega)⟩
    · have hgt : v < value := lt_of_le_of_ne (le_of_not_lt hlt) (Ne.symm hnv)
      obtain ⟨r1, e1, kr1, br1, ge1, le1, c1⟩ := ihr kr br hnr
      obtain ⟨t1, e2, k2, b2, ge2, le2, c2⟩ :=
        InsertBalance_right v value hgt kl kr1 bl br1 h0r b ge1 le1 c1
      exact ⟨t1, by simp [e1, e2], k2, b2, by omega, by omega,
        fun hg _ => c2 (by omega)⟩

end InsertAvl

section Strict

variable {α : Type} [LinearOrder α]

theorem SearchTree_iff_sorted (t : Node α) :
    SearchTree t ↔ List.Sorted (· < ·) (toList t) := by
  induction t with
  | nil => simp [SearchTree, toList]
  | node v h l r ihl ihr =>
    unfold List.Sorted at *
    simp only [SearchTree, toList, List.pairwise_append, List.pairwise_cons, List.mem_cons,
      ihl, ihr]
    constructor
    · rintro ⟨hlv, hvr, hl, hr⟩
      refine ⟨hl, ⟨hvr, hr⟩, ?_⟩
      intro x hx y hy
      rcases hy with rfl | hy
      · exact hlv x hx
      · exact lt_trans (hlv x hx) (hvr y hy)
    · rintro ⟨hl, ⟨hvr, hr⟩, hlr⟩
      exact ⟨fun x hx => hlr x hx v (Or.inl rfl), hvr, hl, hr⟩

theorem Insert_SearchTree {t t1 : Node α} {value : α} (hs : SearchTree t)
    (hn : value ∉ toList t) (e : Insert t value = some t1) : SearchTree t1 := by
  rw [SearchTree_iff_sorted] at hs ⊢
  have ho : Ordered t1 := Insert_Ordered hs.le_of_lt e
  refine List.Sorted.lt_of_le ho ?_
  have hp := Insert_perm e
  have hd : (value ::ₘ (toList t : Multiset α)).Nodup :=
    Multiset.nodup_cons.mpr ⟨hn, Multiset.coe_nodup.mpr hs.nodup⟩
  rw [← hp] at hd
  exact Multiset.coe_nodup.mp hd

end Strict

section Fib

variable {α : Type}

/-- A balanced, height-consistent tree of stored height `h` has at least
`fib (h + 2) - 1` nodes. -/
theorem fib_le_GetSize {t : Node α} (hk : HeightOK t) (hb : Balanced t) :
    ((Nat.fib ((GetHeight t).toNat + 2) : ℕ) : Int) ≤ GetSize t + 1 := by
  induction t with
  | nil => simp [GetHeight, GetSize]
  | node v h l r ihl ihr =>
    obtain ⟨e, kl, kr⟩ := hk
    obtain ⟨b, bl, br⟩ := Balanced_node.mp hb
    have il := ihl kl bl
    have ir := ihr kr br
    obtain ⟨x, hx⟩ : ∃ x : ℕ, GetHeight l = x :=
      ⟨(GetHeight l).toNat, (Int.toNat_of_nonneg (GetHeight_nonneg kl)).symm⟩
    obtain ⟨y, hy⟩ : ∃ y : ℕ, GetHeight r = y :=
      ⟨(GetHeight r).toNat, (Int.toNat_of_nonneg (GetHeight_nonneg kr)).symm⟩
    rw [hx, Int.toNat_ofNat] at il
    rw [hy, Int.toNat_ofNat] at ir
    rw [hx, hy] at e b
    simp only [GetHeight_node, GetSize]
    rcases le_total x y with hxy | hxy
    · have eh : h.toNat = y + 1 := by omega
      have hm : Nat.fib (y + 1) ≤ Nat.fib (x + 2) := Nat.fib_mono (by omega)
      have hf : Nat.fib (y + 1 + 2) = Nat.fib (y + 1) + Nat.fib (y + 2) := Nat.fib_add_two
      rw [eh, hf]
      push_cast
      have hm2 : (Nat.fib (y + 1) : Int) ≤ Nat.fib (x + 2) := by exact_mod_cast hm
      omega
    · have eh : h.toNat = x + 1 := by omega
      have hm : Nat.fib (x + 1) ≤ Nat.fib (y + 2) := Nat.fib_mono (by omega)
      have hf : Nat.fib (x + 1 + 2) = Nat.fib (x + 1) + Nat.fib (x + 2) := Nat.fib_add_two
      rw [eh, hf]
      push_cast
      have hm2 : (Nat.fib (x + 1) : Int) ≤ Nat.fib (y + 2) := by exact_mod_cast hm
      omega

end Fib

end Node

theorem sqrt_five_lb : (2.23606 : ℝ) ≤ √5 := by
  apply Real.le_sqrt_of_sq_le
  norm_num

theorem gold_lb : (1.61803 : ℝ) ≤ goldenRatio := by
  have := sqrt_five_lb
  unfold goldenRatio
  linarith

theorem logb_gold_lb : (84 : ℝ) / 121 ≤ Real.logb 2 goldenRatio := by
  have h1 : (2 : ℝ) ^ 84 ≤ goldenRatio ^ 121 :=
    calc (2 : ℝ) ^ 84 ≤ (1.61803 : ℝ) ^ 121 := by norm_num
      _ ≤ goldenRatio ^ 121 := pow_le_pow_left₀ (by norm_num) gold_lb 121
  have h2 := Real.logb_le_logb_of_le (b := 2) (by norm_num) (by positivity) h1
  rw [Real.logb_pow, Real.logb_pow, Real.logb_self_eq_one (by norm_num)] at h2
  push_cast at h2
  linarith

theorem gold_sq_div_sqrt_five : goldenRatio ^ 2 / √5 = (5 + 3 * √5) / 10 := by
  have h5 : (0 : ℝ) < √5 := by positivity
  have hs : √5 * √5 = 5 := Real.mul_self_sqrt (by norm_num)
  rw [gold_sq]
  unfold goldenRatio
  field_simp
  nlinarith

theorem logb_gold_sq_lb : (91 : ℝ) / 400 ≤ Real.logb 2 (goldenRatio ^ 2 / √5) := by
  have hq : (1.170818 : ℝ) ≤ goldenRatio ^ 2 / √5 := by
    rw [gold_sq_div_sqrt_five]
    have := sqrt_five_lb
    linarith
  have h1 : (2 : ℝ) ^ 91 ≤ (goldenRatio ^ 2 / √5) ^ 400 :=
    calc (2 : ℝ) ^ 91 ≤ (1.170818 : ℝ) ^ 400 := by norm_num
      _ ≤ (goldenRatio ^ 2 / √5) ^ 400 := pow_le_pow_left₀ (by norm_num) hq 400
  have h2 := Real.logb_le_logb_of_le (b := 2) (by norm_num) (by positivity) h1
  rw [Real.logb_pow, Real.logb_pow, Real.logb_self_eq_one (by norm_num)] at h2
  push_cast at h2
  linarith

theorem fib_lb (k : ℕ) : (goldenRatio ^ k - 1) / √5 ≤ (Nat.fib k : ℝ) := by
  rw [Real.coe_fib_eq]
  have h5 : (0 : ℝ) < √5 := by positivity
  have hpsi : goldenConj ^ k ≤ 1 := by
    have habs : |goldenConj| ≤ 1 := by
      rw [abs_le]
      exact ⟨le_of_lt neg_one_lt_goldConj, le_of_lt (lt_trans goldConj_neg one_pos)⟩
    calc goldenConj ^ k ≤ |goldenConj ^ k| := le_abs_self _
      _ = |goldenConj| ^ k := abs_pow _ _
      _ ≤ 1 := pow_le_one₀ (abs_nonneg _) habs
  apply div_le_div_of_nonneg_right _ (le_of_lt h5)
  linarith

/-- From `fib (h + 2) ≤ n + 1` to the logarithmic bound on `h`. -/
theorem height_bound_of_fib (h : ℕ) (n : ℝ) (hf : (Nat.fib (h + 2) : ℝ) ≤ n + 1) :
    (h : ℝ) ≤ 1.4405 * Real.logb 2 (n + 2) - 0.3277 := by
  have h5 : (0 : ℝ) < √5 := by positivity
  have h51 : (1 : ℝ) ≤ √5 := by
    have := sqrt_five_lb
    linarith
  have hg := gold_pos
  have hlow : goldenRatio ^ h * (goldenRatio ^ 2 / √5) ≤ n + 2 := by
    have := fib_lb (h + 2)
    have e : goldenRatio ^ h * (goldenRatio ^ 2 / √5) =
        (goldenRatio ^ (h + 2) - 1) / √5 + 1 / √5 := by
      have e0 : ∀ x y s : ℝ, s ≠ 0 → x * (y / s) = (x * y - 1) / s + 1 / s := by
        intro x y s hs
        field_simp
      rw [pow_add]
      exact e0 _ _ _ h5.ne.symm
    have : 1 / √5 ≤ 1 := by
      rw [div_le_one h5]; exact h51
    rw [e]
    linarith
  have hpos : 0 < goldenRatio ^ h * (goldenRatio ^ 2 / √5) := by positivity
  have hlog := Real.logb_le_logb_of_le (b := 2) (by norm_num) hpos hlow
  rw [Real.logb_mul (by positivity) (by positivity), Real.logb_pow] at hlog
  have h1 := logb_gold_lb
  have h2 := logb_gold_sq_lb
  have hh : (0 : ℝ) ≤ h := Nat.cast_nonneg h
  have : (h : ℝ) * (84 / 121) ≤ h * Real.logb 2 goldenRatio :=
    mul_le_mul_of_nonneg_left h1 hh
  nlinarith

/-! ## The claims on balance, scenarios, copy and output -/

/-- C11: for every tree with at least one node in which every node is
height-consistent and balanced, `n + 1` is at least the Fibonacci number of
index `h + 2`, and `h ≤ 1.4405 * log2 (n + 2) - 0.3277` over the reals, where
`h` is the value of `GetHeight()` and `n` the value of `GetSize()`. -/
theorem C11_avl_height_bound {α : Type} (t : AVLTree α) (hk : Node.HeightOK t.root)
    (hb : Node.Balanced t.root) (hn : 1 ≤ AVLTree.GetSize t) :
    ((Nat.fib ((AVLTree.GetHeight t).toNat + 2) : ℕ) : Int) ≤ AVLTree.GetSize t + 1 ∧
      (AVLTree.GetHeight t : ℝ) ≤
        1.4405 * Real.logb 2 ((AVLTree.GetSize t : ℝ) + 2) - 0.3277 := by
  have hG : AVLTree.GetHeight t = Node.GetHeight t.root := by
    cases t with
    | mk root => cases root <;> rfl
  have h0 : 0 ≤ Node.GetHeight t.root := Node.GetHeight_nonneg hk
  have hf := Node.fib_le_GetSize hk hb
  rw [hG]
  refine ⟨hf, ?_⟩
  have hfr : (Nat.fib ((Node.GetHeight t.root).toNat + 2) : ℝ) ≤
      (AVLTree.GetSize t : ℝ) + 1 := by
    have : ((Nat.fib ((Node.GetHeight t.root).toNat + 2) : ℕ) : Int) ≤
        AVLTree.GetSize t + 1 := hf
    exact_mod_cast this
  have hb2 := height_bound_of_fib _ _ hfr
  have hc : (((Node.GetHeight t.root).toNat : ℕ) : ℝ) = (Node.GetHeight t.root : ℝ) := by
    have : (((Node.GetHeight t.root).toNat : ℕ) : Int) = Node.GetHeight t.root :=
      Int.toNat_of_nonneg h0
    exact_mod_cast this
  rw [hc] at hb2
  exact hb2

/-- Witness of C11: the tree built by the inserts 2, 1, 3. -/
theorem C11_avl_height_bound_witness :
    Node.HeightOK (.node 2 2 (.node 1 1 .nil .nil) (.node 3 1 .nil .nil) : Node Nat) ∧
      Node.Balanced (.node 2 2 (.node 1 1 .nil .nil) (.node 3 1 .nil .nil) : Node Nat) ∧
      1 ≤ AVLTree.GetSize
        (⟨.node 2 2 (.node 1 1 .nil .nil) (.node 3 1 .nil .nil)⟩ : AVLTree Nat) ∧
      ((Nat.fib ((AVLTree.GetHeight
          (⟨.node 2 2 (.node 1 1 .nil .nil) (.node 3 1 .nil .nil)⟩ : AVLTree Nat)).toNat + 2) :
          ℕ) : Int) ≤
        AVLTree.GetSize
          (⟨.node 2 2 (.node 1 1 .nil .nil) (.node 3 1 .nil .nil)⟩ : AVLTree Nat) + 1 ∧
      (AVLTree.GetHeight
          (⟨.node 2 2 (.node 1 1 .nil .nil) (.node 3 1 .nil .nil)⟩ : AVLTree Nat) : ℝ) ≤
        1.4405 * Real.logb 2 ((AVLTree.GetSize
          (⟨.node 2 2 (.node 1 1 .nil .nil) (.node 3 1 .nil .nil)⟩ : AVLTree Nat) : ℝ) + 2)
          - 0.3277 :=
  ⟨by simp [Node.HeightOK], by simp [Node.Balanced], by decide,
    C11_avl_height_bound _ (by simp [Node.HeightOK]) (by simp [Node.Balanced]) (by decide)⟩

/-- C12: every tree reached from the empty tree by completed insert, remove and
clear calls is height-consistent (every stored height is 1 plus the larger of
the stored heights of the two subtrees, an empty subtree counted as 0), and
`GetHeight()` is the number of nodes on the longest path from the root down to
a leaf. -/
theorem C12_height_consistency {α : Type} [LinearOrder α] (t : AVLTree α)
    (hr : ReachableByCalls t) :
    Node.HeightOK t.root ∧ AVLTree.GetHeight t = (Node.LongestPath t.root : Int) := by
  obtain ⟨cs, e⟩ := hr
  have hk : Node.HeightOK t.root := by
    refine (runCalls_keeps e trivial ?_).1
    simp [AVLTree.empty, Node.Ordered, Node.toList]
  refine ⟨hk, ?_⟩
  have := Node.GetHeight_eq_LongestPath hk
  cases t with
  | mk root =>
    cases root with
    | nil => rfl
    | node v h l r => exact this

/-- Witness of C12: the tree reached by insert 1, clear, insert 2, insert 3, insert 4,
remove 2. -/
theorem C12_height_consistency_witness :
    ReachableByCalls (⟨.node 3 2 .nil (.node 4 1 .nil .nil)⟩ : AVLTree Nat) ∧
      Node.HeightOK (.node 3 2 .nil (.node 4 1 .nil .nil) : Node Nat) ∧
      AVLTree.GetHeight (⟨.node 3 2 .nil (.node 4 1 .nil .nil)⟩ : AVLTree Nat) =
        (Node.LongestPath (.node 3 2 .nil (.node 4 1 .nil .nil) : Node Nat) : Int) :=
  ⟨⟨[.insert 1, .clear, .insert 2, .insert 3, .insert 4, .remove 2], by decide⟩,
    C12_height_consistency _
      ⟨[.insert 1, .clear, .insert 2, .insert 3, .insert 4, .remove 2], by decide⟩⟩

/-- C13: for every tree and every value, after `Clear()` the tree is empty:
`GetSize()` is 0, `GetHeight()` is 0 and `Find` returns false. -/
theorem C13_clear_empties {α : Type} [LinearOrder α] (t : AVLTree α) (v : α) :
    AVLTree.Clear t = AVLTree.empty ∧
      AVLTree.GetSize (AVLTree.Clear t) = 0 ∧
      AVLTree.GetHeight (AVLTree.Clear t) = 0 ∧
      AVLTree.Find (AVLTree.Clear t) v = false := by
  have h : AVLTree.Clear t = AVLTree.empty := by
    simp [AVLTree.Clear, AVLTree.empty, Node.Clear_eq_nil]
  rw [h]
  exact ⟨rfl, rfl, rfl, rfl⟩

/-- C14: for all values `a < b < c`, inserting them into the empty tree in the order
a, b, c (single left rotation), c, b, a (single right rotation) or c, a, b
(left rotation of the left child, then right rotation) gives the same tree: the
root holds `b` with stored height 2, its left child is a leaf holding `a` and
its right child a leaf holding `c`, both with stored height 1. -/
theorem C14_three_element_rotations {α : Type} [LinearOrder α] (a b c : α)
    (hab : a < b) (hbc : b < c) :
    AVLTree.InsertAll AVLTree.empty [a, b, c] =
        some ⟨.node b 2 (.node a 1 .nil .nil) (.node c 1 .nil .nil)⟩ ∧
      AVLTree.InsertAll AVLTree.empty [c, b, a] =
        some ⟨.node b 2 (.node a 1 .nil .nil) (.node c 1 .nil .nil)⟩ ∧
      AVLTree.InsertAll AVLTree.empty [c, a, b] =
        some ⟨.node b 2 (.node a 1 .nil .nil) (.node c 1 .nil .nil)⟩ := by
  have hac : a < c := lt_trans hab hbc
  have nba : ¬ b < a := not_lt_of_lt hab
  have ncb : ¬ c < b := not_lt_of_lt hbc
  have nca : ¬ c < a := not_lt_of_lt hac
  have e0 : ∀ x : α, Node.Insert Node.nil x = some (.node x 1 .nil .nil) := fun _ => rfl
  have ab : Node.Insert (.node a 1 .nil .nil) b = some (.node a 2 .nil (.node b 1 .nil .nil)) := by
    simp [Node.Insert, Node.InsertBalance, nba]
  have abc : Node.Insert (.node a 2 .nil (.node b 1 .nil .nil)) c =
      some (.node b 2 (.node a 1 .nil .nil) (.node c 1 .nil .nil)) := by
    simp [Node.Insert, Node.InsertBalance, Node.RotateLeft, nca, ncb, hbc]
  have cb : Node.Insert (.node c 1 .nil .nil) b = some (.node c 2 (.node b 1 .nil .nil) .nil) := by
    simp [Node.Insert, Node.InsertBalance, hbc]
  have cba : Node.Insert (.node c 2 (.node b 1 .nil .nil) .nil) a =
      some (.node b 2 (.node a 1 .nil .nil) (.node c 1 .nil .nil)) := by
    simp [Node.Insert, Node.InsertBalance, Node.RotateRight, hac, hab]
  have ca : Node.Insert (.node c 1 .nil .nil) a = some (.node c 2 (.node a 1 .nil .nil) .nil) := by
    simp [Node.Insert, Node.InsertBalance, hac]
  have cab : Node.Insert (.node c 2 (.node a 1 .nil .nil) .nil) b =
      some (.node b 2 (.node a 1 .nil .nil) (.node c 1 .nil .nil)) := by
    simp [Node.Insert, Node.InsertBalance, Node.RotateLeft, Node.RotateRight, hbc, nba, hab]
  refine ⟨?_, ?_, ?_⟩
  · simp [AVLTree.InsertAll, AVLTree.Insert, AVLTree.empty, e0, ab, abc]
  · simp [AVLTree.InsertAll, AVLTree.Insert, AVLTree.empty, e0, cb, cba]
  · simp [AVLTree.InsertAll, AVLTree.Insert, AVLTree.empty, e0, ca, cab]

/-- Witness of C14: the values 10, 20, 30. -/
theorem C14_three_element_rotations_witness :
    (10 : Nat) < 20 ∧ (20 : Nat) < 30 ∧
      (AVLTree.InsertAll AVLTree.empty [10, 20, 30] =
          some (⟨.node 20 2 (.node 10 1 .nil .nil) (.node 30 1 .nil .nil)⟩ : AVLTree Nat) ∧
        AVLTree.InsertAll AVLTree.empty [30, 20, 10] =
          some (⟨.node 20 2 (.node 10 1 .nil .nil) (.node 30 1 .nil .nil)⟩ : AVLTree Nat) ∧
        AVLTree.InsertAll AVLTree.empty [30, 10, 20] =
          some (⟨.node 20 2 (.node 10 1 .nil .nil) (.node 30 1 .nil .nil)⟩ : AVLTree Nat)) :=
  ⟨by decide, by decide, C14_three_element_rotations 10 20 30 (by decide) (by decide)⟩

/-- C15: on the tree built by the inserts 20, 10, 30, 5, 15, 25, 35 the call
`remove(20)` returns true; afterwards the root holds 25, every node is
balanced, `find(20)` is false and `size()` is 6. -/
theorem C15_two_children_deletion :
    ∃ t t1 : AVLTree Nat,
      AVLTree.InsertAll AVLTree.empty [20, 10, 30, 5, 15, 25, 35] = some t ∧
      AVLTree.Remove t 20 = some (true, t1) ∧
      (∃ h l r, t1.root = .node 25 h l r) ∧
      Node.Balanced t1.root ∧
      AVLTree.Find t1 20 = false ∧
      AVLTree.GetSize t1 = 6 := by
  refine ⟨⟨.node 20 3 (.node 10 2 (.node 5 1 .nil .nil) (.node 15 1 .nil .nil))
      (.node 30 2 (.node 25 1 .nil .nil) (.node 35 1 .nil .nil))⟩,
    ⟨.node 25 3 (.node 10 2 (.node 5 1 .nil .nil) (.node 15 1 .nil .nil))
      (.node 30 2 .nil (.node 35 1 .nil .nil))⟩,
    by decide, by decide, ⟨_, _, _, rfl⟩, ?_, by decide, by decide⟩
  simp [Node.Balanced, Node.GetHeight]

/-- C16 (fails on the code): the copy constructor never initialises `root`, and for
an empty source `Copy` returns without writing to it, so the tree constructed
from the empty tree holds whatever `root` held and need not be empty.  For a
non-empty source the copy is the source, and the assignment operator, which
clears `root` first, copies every source. -/
theorem C16_copy_of_empty_not_empty :
    (∀ uninit : Node Nat, AVLTree.CopyConstruct uninit AVLTree.empty = ⟨uninit⟩) ∧
      AVLTree.CopyConstruct (.node 7 1 .nil .nil) (AVLTree.empty : AVLTree Nat)
        ≠ AVLTree.empty ∧
      (∀ (uninit : Node Nat) (v : Nat) (h : Int) (l r : Node Nat),
        AVLTree.CopyConstruct uninit ⟨.node v h l r⟩ = ⟨.node v h l r⟩) ∧
      (∀ this tree : AVLTree Nat, AVLTree.Assign this tree = tree) := by
  refine ⟨fun _ => rfl, by decide, ?_, ?_⟩
  · intro uninit v h l r
    simp [AVLTree.CopyConstruct, Node.Copy_of_node]
  · intro this tree
    simp [AVLTree.Assign, Node.Clear_eq_nil, Node.Copy_nil_link]

/-- C18: for every tree that satisfies strict search-tree order, AVL balance and
height consistency, and every value that no node holds, `Insert(root, v)` runs
to completion (every rotation finds the child it promotes) and the tree it
returns again satisfies strict search-tree order, AVL balance and height
consistency, with a stored root height equal to the old one or the old one
plus 1. -/
theorem C18_insert_new_key_keeps_avl {α : Type} [LinearOrder α] (t : Node α) (v : α)
    (hs : Node.SearchTree t) (hb : Node.Balanced t) (hk : Node.HeightOK t)
    (hn : v ∉ Node.toList t) :
    ∃ t1, Node.Insert t v = some t1 ∧ Node.SearchTree t1 ∧ Node.Balanced t1 ∧
      Node.HeightOK t1 ∧
      (Node.GetHeight t1 = Node.GetHeight t ∨ Node.GetHeight t1 = Node.GetHeight t + 1) := by
  obtain ⟨t1, e, k1, b1, ge1, le1, -⟩ := Node.Insert_avl hk hb hn
  exact ⟨t1, e, Node.Insert_SearchTree hs hn e, b1, k1, by omega⟩

/-- Witness of C18: 20 inserted into the tree that holds 30 at the root and 10 in its
left child (the case of the double rotation). -/
theorem C18_insert_new_key_keeps_avl_witness :
    Node.SearchTree (.node 30 2 (.node 10 1 .nil .nil) .nil : Node Nat) ∧
      Node.Balanced (.node 30 2 (.node 10 1 .nil .nil) .nil : Node Nat) ∧
      Node.HeightOK (.node 30 2 (.node 10 1 .nil .nil) .nil : Node Nat) ∧
      20 ∉ Node.toList (.node 30 2 (.node 10 1 .nil .nil) .nil : Node Nat) ∧
      ∃ t1, Node.Insert (.node 30 2 (.node 10 1 .nil .nil) .nil : Node Nat) 20 = some t1 ∧
        Node.SearchTree t1 ∧ Node.Balanced t1 ∧ Node.HeightOK t1 ∧
        (Node.GetHeight t1 = Node.GetHeight (.node 30 2 (.node 10 1 .nil .nil) .nil : Node Nat) ∨
          Node.GetHeight t1 =
            Node.GetHeight (.node 30 2 (.node 10 1 .nil .nil) .nil : Node Nat) + 1) :=
  ⟨by simp [Node.SearchTree, Node.toList], by simp [Node.Balanced],
    by simp [Node.HeightOK], by simp [Node.toList],
    C18_insert_new_key_keeps_avl _ 20 (by simp [Node.SearchTree, Node.toList])
      (by simp [Node.Balanced]) (by simp [Node.HeightOK]) (by simp [Node.toList])⟩

/-- C19: for every tree in which every node is balanced and height-consistent (no
assumption on the order of the values) and every value, the recursive `Remove`
finds every node it rotates (it returns a tree), and the tree it returns is
again balanced and height-consistent at every node, with a stored root height
equal to the old one or the old one minus 1. -/
theorem C19_remove_keeps_balance {α : Type} [LinearOrder α] (t : Node α) (v : α)
    (hk : Node.HeightOK t) (hb : Node.Balanced t) :
    ∃ t1, Node.Remove t v = some t1 ∧ Node.HeightOK t1 ∧ Node.Balanced t1 ∧
      (Node.GetHeight t1 = Node.GetHeight t ∨ Node.GetHeight t1 = Node.GetHeight t - 1) := by
  obtain ⟨t1, e, k1, b1, le1, ge1⟩ := Node.Remove_avl hk hb v
  exact ⟨t1, e, k1, b1, by omega⟩

/-- Witness of C19: 2 removed from a balanced tree whose values are in no order; the
right subtree is rotated right, then the root is rotated left. -/
theorem C19_remove_keeps_balance_witness :
    Node.HeightOK (.node 4 3 (.node 2 1 .nil .nil)
        (.node 1 2 (.node 7 1 .nil .nil) .nil) : Node Nat) ∧
      Node.Balanced (.node 4 3 (.node 2 1 .nil .nil)
        (.node 1 2 (.node 7 1 .nil .nil) .nil) : Node Nat) ∧
      ∃ t1, Node.Remove (.node 4 3 (.node 2 1 .nil .nil)
          (.node 1 2 (.node 7 1 .nil .nil) .nil) : Node Nat) 2 = some t1 ∧
        Node.HeightOK t1 ∧ Node.Balanced t1 ∧
        (Node.GetHeight t1 = Node.GetHeight (.node 4 3 (.node 2 1 .nil .nil)
            (.node 1 2 (.node 7 1 .nil .nil) .nil) : Node Nat) ∨
          Node.GetHeight t1 = Node.GetHeight (.node 4 3 (.node 2 1 .nil .nil)
            (.node 1 2 (.node 7 1 .nil .nil) .nil) : Node Nat) - 1) :=
  ⟨by simp [Node.HeightOK], by simp [Node.Balanced],
    C19_remove_keeps_balance _ 2 (by simp [Node.HeightOK]) (by simp [Node.Balanced])⟩

/-- C20: for every tree whose in-order sequence of values is non-decreasing and
every value, the tree returned by `Insert(root, v)`, when the call completes,
and the tree returned by `Remove(root, v)` again list their values in
non-decreasing order (`Remove` does return on every height-consistent tree);
`RotateLeft` and `RotateRight` leave the in-order sequence unchanged; hence
every tree reached from the empty tree by completed inserts and removes lists
its values in non-decreasing order. -/
theorem C20_weak_order_invariant {α : Type} [LinearOrder α] (t : Node α) (v : α)
    (ho : Node.Ordered t) :
    (∀ t1, Node.Insert t v = some t1 → Node.Ordered t1) ∧
      (∀ t1, Node.Remove t v = some t1 → Node.Ordered t1) ∧
      (Node.HeightOK t → ∃ t1, Node.Remove t v = some t1 ∧ Node.Ordered t1) ∧
      (∀ s s1 : Node α, Node.RotateLeft s = some s1 → Node.toList s1 = Node.toList s) ∧
      (∀ s s1 : Node α, Node.RotateRight s = some s1 → Node.toList s1 = Node.toList s) ∧
      (∀ u : AVLTree α, Reachable u → Node.Ordered u.root) := by
  refine ⟨fun t1 e => Node.Insert_Ordered ho e, fun t1 e => (Node.Remove_spec ho e).1, ?_,
    fun s s1 e => Node.toList_RotateLeft e, fun s s1 e => Node.toList_RotateRight e,
    fun u hu => hu.inv.2⟩
  intro hk
  obtain ⟨t1, e, -⟩ := Node.Remove_total hk v
  exact ⟨t1, e, (Node.Remove_spec ho e).1⟩

/-- Witness of C20: the tree built by the inserts 1, 1, 2, which holds a 1 in the left
subtree of its root 1, and the value 1. -/
theorem C20_weak_order_invariant_witness :
    Node.Ordered (.node 1 2 (.node 1 1 .nil .nil) (.node 2 1 .nil .nil) : Node Nat) ∧
      ((∀ t1, Node.Insert (.node 1 2 (.node 1 1 .nil .nil) (.node 2 1 .nil .nil) : Node Nat) 1
          = some t1 → Node.Ordered t1) ∧
      (∀ t1, Node.Remove (.node 1 2 (.node 1 1 .nil .nil) (.node 2 1 .nil .nil) : Node Nat) 1
          = some t1 → Node.Ordered t1) ∧
      (Node.HeightOK (.node 1 2 (.node 1 1 .nil .nil) (.node 2 1 .nil .nil) : Node Nat) →
        ∃ t1, Node.Remove (.node 1 2 (.node 1 1 .nil .nil) (.node 2 1 .nil .nil) : Node Nat) 1
          = some t1 ∧ Node.Ordered t1) ∧
      (∀ s s1 : Node Nat, Node.RotateLeft s = some s1 → Node.toList s1 = Node.toList s) ∧
      (∀ s s1 : Node Nat, Node.RotateRight s = some s1 → Node.toList s1 = Node.toList s) ∧
      (∀ u : AVLTree Nat, Reachable u → Node.Ordered u.root)) :=
  ⟨by simp [Node.Ordered, Node.toList],
    C20_weak_order_invariant _ 1 (by simp [Node.Ordered, Node.toList])⟩

end AVL
